import Mathlib

/-!
# np: command execution with per-key coalescing and a file-backed cache

A shallow embedding of `api.go` and `db.go`.

* Go strings are Lean `String`s, Go `int` is `Int`.
* The standard library is not part of the repository: `encoding/json` is a
  parameter (`JSONCodec`, `Env.unmarshalRequest`), the file system is a small
  explicit model (`FS`), `ExecuteCommand`, whose result is random, is a
  parameter in the sequential model and a free choice of the scheduler in the
  concurrent one.
* `handleCommand` is embedded twice from the same primitives: as a function
  running one call to completion (`handleCommand`), and as a thread that takes
  one shared-memory step at a time (`step`), for the properties that quantify
  over interleavings.
-/

namespace NP

/-! ## api.go: types -/

/-- CmdExecRequest: request to execute a command for a given ID. -/
structure CmdExecRequest where
  cmd : String
  id : Int
deriving DecidableEq, Repr

/-- CmdExecResult: result of command execution for a given ID. -/
structure CmdExecResult where
  cmd : String
  id : Int
  result : String
deriving DecidableEq, Repr

/-- APIError: common format for API errors. -/
structure APIError where
  error : String
deriving DecidableEq, Repr

/-- The `data interface{}` argument of `writeJSON`: the two types it is called with. -/
inductive Payload where
  | apiError (e : APIError)
  | execResult (r : CmdExecResult)
deriving DecidableEq, Repr

/-- What `writeJSON(w, data, status)` sends: the payload and the status code. -/
structure Response where
  data : Payload
  status : Nat
deriving DecidableEq, Repr

def StatusOK : Nat := 200
def StatusBadRequest : Nat := 400
def StatusInternalServerError : Nat := 500

/-- writeJSON, api.go 95-107. `json.Marshal` has no error case on `APIError` and
`CmdExecResult`, so the response is the payload with the given status. -/
def writeJSON (data : Payload) (status : Nat) : Response := ⟨data, status⟩

/-- The part of `*http.Request` that `handleCommand` reads. -/
structure Request where
  method : String
  body : String
deriving DecidableEq, Repr

def MethodPost : String := "POST"

/-- The constant `maxBytes` of api.go 49. -/
def maxBytes : Nat := 1048576

/-! ## fmt.Sprintf("%d+%s", id, cmd) -/

/-- Decimal digits of `n`, most significant first, pushed in front of `acc`
(the verb `%d` on a non-negative number); `fuel` bounds the number of digits. -/
def decimalDigits : Nat → Nat → List Char → List Char
  | 0, _, acc => acc
  | fuel + 1, n, acc =>
    if n < 10 then Nat.digitChar n :: acc
    else decimalDigits fuel (n / 10) (Nat.digitChar (n % 10) :: acc)

def formatNat (n : Nat) : List Char := decimalDigits (n + 1) n []

/-- The verb `%d`: a minus sign for negative numbers, no sign otherwise. -/
def formatInt : Int → List Char
  | Int.ofNat n => formatNat n
  | Int.negSucc n => '-' :: formatNat (n + 1)

/-- The key of api.go 69: `fmt.Sprintf("%d+%s", req.ID, req.Cmd)`. -/
def key (id : Int) (cmd : String) : String :=
  String.mk (formatInt id) ++ "+" ++ cmd

/-- Value of a digit string read left to right, starting from `a`. -/
def digitsValue (a : Nat) (cs : List Char) : Nat :=
  cs.foldl (fun v c => v * 10 + (c.toNat - 48)) a


/-! ## The world outside the repository: errors, files, encoding/json -/

/-- Error values the program can meet. `notExist` is the one `os.IsNotExist`
recognises, `io` any other failure of the file system, `json` a failure of
`encoding/json`. -/
inductive Error where
  | notExist
  | io
  | json (msg : String)
deriving DecidableEq, Repr

def osIsNotExist : Error → Bool
  | .notExist => true
  | _ => false

/-- What a path holds: nothing, a readable file, or a file that exists and cannot
be read (permission denied, a directory). -/
inductive FileState where
  | absent
  | content (bytes : String)
  | unreadable
deriving DecidableEq, Repr

/-- The file system: what each path holds and at which paths writing fails. A
failed write is modelled as leaving the path as it was; nothing below depends on
what a failed write leaves behind. -/
structure FS where
  file : String → FileState
  readOnly : String → Bool

/-- os.ReadFile -/
def osReadFile (fs : FS) (name : String) : Except Error String :=
  match fs.file name with
  | .absent => .error .notExist
  | .content bytes => .ok bytes
  | .unreadable => .error .io

/-- os.WriteFile(name, data, 0644) -/
def osWriteFile (fs : FS) (name : String) (data : String) : Option Error × FS :=
  if fs.readOnly name then (some .io, fs)
  else (none, { fs with file := fun n => if n = name then .content data else fs.file n })

/-- A Go `map[string]string`: an association list with one entry per key. A nil map
reads like the empty map and is not told apart from it here. -/
abbrev GoMap := List (String × String)

/-- The map read `value, ok := m[key]`, as an option. -/
def GoMap.get (m : GoMap) (k : String) : Option String := m.lookup k

/-- The map write `m[key] = value`. -/
def GoMap.set (m : GoMap) (k v : String) : GoMap :=
  (k, v) :: m.filter (fun e => e.1 != k)

/-- The two functions of `encoding/json` that db.go calls on `map[string]string`.
`unmarshal file data` is `json.Unmarshal(file, &data)`: the error, if any, and
what `data` holds afterwards. What the library accepts and what it writes is the
library's affair: it returns no error on the document `null` (the map is then nil),
and it writes a byte that is not valid UTF-8 as U+FFFD. -/
structure JSONCodec where
  marshalIndent : GoMap → Except String String
  unmarshal : String → GoMap → Option String × GoMap

/-! ## db.go -/

/-- fileDB is a file-based key-value storage (db.go 32-36). Its `sync.RWMutex` makes
`Set`, `Get` and `loadFile` atomic; they are single steps here. -/
structure fileDB where
  filename : String
  data : GoMap
deriving DecidableEq, Repr

/-- writeFile flushes in-memory storage to file to persist (db.go 73-80). -/
def fileDB.writeFile (c : JSONCodec) (s : fileDB) (fs : FS) : Option Error × FS :=
  match c.marshalIndent s.data with
  | .error e => (some (.json e), fs)
  | .ok file => osWriteFile fs s.filename file

/-- Set (db.go 38-44): the error returned, the store and the file system afterwards. -/
def fileDB.Set (c : JSONCodec) (s : fileDB) (fs : FS) (key value : String) :
    Option Error × fileDB × FS :=
  let s1 : fileDB := { s with data := s.data.set key value }
  let (err, fs1) := s1.writeFile c fs
  (err, s1, fs1)

/-- Get (db.go 46-52). -/
def fileDB.Get (s : fileDB) (key : String) : String × Bool :=
  match s.data.get key with
  | some value => (value, true)
  | none => ("", false)

/-- loadFile loads the file content to in-memory storage (db.go 55-70). -/
def fileDB.loadFile (c : JSONCodec) (s : fileDB) (fs : FS) : Option Error × fileDB :=
  match osReadFile fs s.filename with
  | .error err =>
    if osIsNotExist err then (none, { s with data := [] })
    else (some err, s)
  | .ok file =>
    let (e, data) := c.unmarshal file s.data
    (e.map Error.json, { s with data := data })

/-- NewFileDB (db.go 17-27). -/
def NewFileDB (c : JSONCodec) (fs : FS) (filename : String) : Except Error fileDB :=
  let db : fileDB := { filename := filename, data := [] }
  let (err, db1) := db.loadFile c fs
  match err with
  | some e => if !osIsNotExist e then .error e else .ok db1
  | none => .ok db1

/-! ## api.go: cmdMutexMap, getNamedMutex, handleCommand -/

/-- The process state `handleCommand` works on: the global `cmdMutexMap` (key to
mutex pointer), the heap of `sync.Mutex` values (pointer to "is locked") with its
next free pointer, the global `database` and the file system behind it. -/
structure World where
  cmdMutexMap : String → Option Nat
  mutexLocked : Nat → Bool
  nextMutex : Nat
  database : fileDB
  fs : FS

/-- What the rest of the process supplies to one call: `encoding/json` on the
store's map, `json.Unmarshal(body, &req)` on a request body (`none` when it
returns an error), and the string `ExecuteCommand` returns when it is invoked. -/
structure Env where
  json : JSONCodec
  unmarshalRequest : String → Option CmdExecRequest
  ExecuteCommand : String → String

/-- The calls `handleCommand` makes on shared state and on the Executor. -/
inductive Event where
  | loadOrStore (key : String)
  | lock (mutex : Nat)
  | databaseGet (key : String)
  | executeCommand (cmd : String)
  | databaseSet (key value : String)
  | mapDelete (key : String)
  | unlock (mutex : Nat)
deriving DecidableEq, Repr

/-- getNamedMutex (api.go 35-38): `&sync.Mutex{}` allocates a new unlocked mutex,
`LoadOrStore` returns the mutex already stored under `key`, or stores the new one
and returns it. -/
def getNamedMutex (w : World) (key : String) : Nat × World :=
  let fresh := w.nextMutex
  let w1 : World := { w with
    mutexLocked := fun m => if m = fresh then false else w.mutexLocked m
    nextMutex := fresh + 1 }
  match w.cmdMutexMap key with
  | some mutex => (mutex, w1)
  | none => (fresh, { w1 with
      cmdMutexMap := fun k => if k = key then some fresh else w.cmdMutexMap k })

/-- The state change of `mutex.Lock()` once the mutex is free. -/
def mutexLock (w : World) (mutex : Nat) : World :=
  { w with mutexLocked := fun m => if m = mutex then true else w.mutexLocked m }

/-- mutex.Unlock() -/
def mutexUnlock (w : World) (mutex : Nat) : World :=
  { w with mutexLocked := fun m => if m = mutex then false else w.mutexLocked m }

/-- cmdMutexMap.Delete(key) -/
def mapDelete (w : World) (key : String) : World :=
  { w with cmdMutexMap := fun k => if k = key then none else w.cmdMutexMap k }

/-- database.Set(key, value) on the world. -/
def databaseSet (c : JSONCodec) (w : World) (key value : String) : Option Error × World :=
  let (err, db, fs) := w.database.Set c w.fs key value
  (err, { w with database := db, fs := fs })

/-- The deferred calls of api.go 74-75, in the order Go runs them (last
registered first): `cmdMutexMap.Delete(key)`, then `mutex.Unlock()`. -/
def runDeferred (w : World) (key : String) (mutex : Nat) : World :=
  mutexUnlock (mapDelete w key) mutex

/-- One call of `handleCommand` run to its end: the response written (`none` when
the call never gets past `mutex.Lock()` because the mutex it found is locked),
the world it leaves, and the calls it made, in order. -/
structure Outcome where
  response : Option Response
  world : World
  trace : List Event

/-- The body of `handleCommand` from the key on (api.go 69-92), for a request that
passed validation. -/
def coordinate (env : Env) (w : World) (req : CmdExecRequest) : Outcome :=
  let k := key req.id req.cmd
  let (mutex, w1) := getNamedMutex w k
  if w1.mutexLocked mutex then
    { response := none, world := w1, trace := [.loadOrStore k] }
  else
    let w2 := mutexLock w1 mutex
    let (cached, found) := w2.database.Get k
    if !found then
      let result := env.ExecuteCommand req.cmd
      let (err, w3) := databaseSet env.json w2 k result
      match err with
      | some _ =>
        { response := some
            (writeJSON (.apiError ⟨"Error saving result."⟩) StatusInternalServerError)
          world := runDeferred w3 k mutex
          trace := [.loadOrStore k, .lock mutex, .databaseGet k, .executeCommand req.cmd,
            .databaseSet k result, .mapDelete k, .unlock mutex] }
      | none =>
        { response := some (writeJSON (.execResult ⟨req.cmd, req.id, result⟩) StatusOK)
          world := runDeferred w3 k mutex
          trace := [.loadOrStore k, .lock mutex, .databaseGet k, .executeCommand req.cmd,
            .databaseSet k result, .mapDelete k, .unlock mutex] }
    else
      { response := some (writeJSON (.execResult ⟨req.cmd, req.id, cached⟩) StatusOK)
        world := runDeferred w2 k mutex
        trace := [.loadOrStore k, .lock mutex, .databaseGet k, .mapDelete k, .unlock mutex] }

/-- handleCommand (api.go 40-93). `io.ReadAll` on the `http.MaxBytesReader` fails
when the body is longer than `maxBytes`. -/
def handleCommand (env : Env) (w : World) (r : Request) : Outcome :=
  if r.method ≠ MethodPost then
    { response := some
        (writeJSON (.apiError ⟨"Method not allowed"⟩) StatusInternalServerError)
      world := w, trace := [] }
  else if maxBytes < r.body.utf8ByteSize then
    { response := some
        (writeJSON (.apiError ⟨"Error reading request body."⟩) StatusInternalServerError)
      world := w, trace := [] }
  else
    match env.unmarshalRequest r.body with
    | none =>
      { response := some
          (writeJSON (.apiError ⟨"Invalid writeJSON format."⟩) StatusBadRequest)
        world := w, trace := [] }
    | some req =>
      if req.cmd = "" ∨ req.id = 0 then
        { response := some
            (writeJSON (.apiError ⟨"Invalid writeJSON: 'cmd' and 'id' are required."⟩)
              StatusBadRequest)
          world := w, trace := [] }
      else coordinate env w req

/-- Several calls of `handleCommand` one after the other, each with its own
environment; the world after the last one. -/
def serve (w : World) : List (Env × Request) → World
  | [] => w
  | (env, r) :: rest => serve (handleCommand env w r).world rest

/-- No call is in progress on `key`: the registry has no mutex for it, or an
unlocked one. -/
def keyFree (w : World) (key : String) : Prop :=
  match w.cmdMutexMap key with
  | none => True
  | some mutex => w.mutexLocked mutex = false

/-- The request `r` passes the checks of api.go 41-67 and decodes to `req`. -/
def Accepted (env : Env) (r : Request) (req : CmdExecRequest) : Prop :=
  r.method = MethodPost ∧ r.body.utf8ByteSize ≤ maxBytes ∧
    env.unmarshalRequest r.body = some req ∧ req.cmd ≠ "" ∧ req.id ≠ 0

/-- The response of a successful call: status 200 with `cmd`, `id` and `result`. -/
def okResponse (req : CmdExecRequest) (result : String) : Response :=
  writeJSON (.execResult ⟨req.cmd, req.id, result⟩) StatusOK

/-- The response of a call whose `database.Set` failed. -/
def saveErrorResponse : Response :=
  writeJSON (.apiError ⟨"Error saving result."⟩) StatusInternalServerError

/-- Number of invocations of `ExecuteCommand` in a trace. -/
def execCalls : List Event → Nat
  | [] => 0
  | .executeCommand _ :: rest => execCalls rest + 1
  | _ :: rest => execCalls rest

/-- Number of calls of `database.Set` in a trace. -/
def setCalls : List Event → Nat
  | [] => 0
  | .databaseSet _ _ :: rest => setCalls rest + 1
  | _ :: rest => setCalls rest

instance (env : Env) (r : Request) (req : CmdExecRequest) : Decidable (Accepted env r req) := by
  unfold Accepted
  infer_instance

instance (w : World) (k : String) : Decidable (keyFree w k) := by
  unfold keyFree
  cases w.cmdMutexMap k <;> infer_instance

/-! ## Concurrent calls of handleCommand

Each call is a thread that takes the steps of api.go 72-92 on the shared world, one
at a time; a schedule picks the thread that moves next. The steps are the calls on
shared state (`getNamedMutex`, `Lock`, `database.Get`, `database.Set`, the deferred
`Delete` and `Unlock`), and entering and leaving `ExecuteCommand`. Validation
(api.go 41-67) only touches the call's own variables, so threads start at the key. -/

/-- Where a call stands: the statement it executes next, with its local variables. -/
inductive PC where
  /-- Before `getNamedMutex(key)`, api.go 72. -/
  | start
  /-- In `mutex.Lock()`, api.go 73: waiting for the mutex. -/
  | acquire (mutex : Nat)
  /-- Holding the mutex, before `database.Get(key)`, api.go 77. -/
  | critical (mutex : Nat)
  /-- The key was not found; before entering `ExecuteCommand`, api.go 79. -/
  | call (mutex : Nat)
  /-- Inside `ExecuteCommand`. -/
  | executing (mutex : Nat)
  /-- `ExecuteCommand` returned `result`; before `database.Set`, api.go 80. -/
  | save (mutex : Nat) (result : String)
  /-- The response is written; before the deferred `cmdMutexMap.Delete(key)`. -/
  | deferDelete (mutex : Nat) (resp : Response)
  /-- Before the deferred `mutex.Unlock()`. -/
  | deferUnlock (mutex : Nat) (resp : Response)
  /-- Returned. -/
  | done (resp : Response)
deriving DecidableEq, Repr

/-- The mutex the call holds locked. -/
def PC.held : PC → Option Nat
  | .critical m | .call m | .executing m | .save m _ | .deferDelete m _ | .deferUnlock m _ =>
    some m
  | _ => none

/-- The mutex the call is waiting to acquire. -/
def PC.waiting : PC → Option Nat
  | .acquire m => some m
  | _ => none

/-- The mutex the call took from the registry, until it has run its `Delete`. -/
def PC.registered : PC → Option Nat
  | .acquire m | .critical m | .call m | .executing m | .save m _ | .deferDelete m _ => some m
  | _ => none

/-- The call is inside `ExecuteCommand`. -/
def PC.inFlight : PC → Bool
  | .executing _ => true
  | _ => false

/-- The call has entered `ExecuteCommand` and not yet stored its result. -/
def PC.running : PC → Bool
  | .executing _ | .save _ _ => true
  | _ => false

/-- The call missed the cache and has not yet stored its result. -/
def PC.computing : PC → Bool
  | .call _ | .executing _ | .save _ _ => true
  | _ => false

/-- The response the call has written. -/
def PC.response : PC → Option Response
  | .deferDelete _ r | .deferUnlock _ r | .done r => some r
  | _ => none

/-- Steps the call has taken at most (the hit path skips four). -/
def PC.rank : PC → Nat
  | .start => 0
  | .acquire _ => 1
  | .critical _ => 2
  | .call _ => 3
  | .executing _ => 4
  | .save _ _ => 5
  | .deferDelete _ _ => 6
  | .deferUnlock _ _ => 7
  | .done _ => 8

/-- The process with `calls` concurrent calls of `handleCommand`: call `i` carries
the validated request `req i` and stands at `pc i`; `trace` lists the calls made on
shared state and on the Executor, each with the thread that made it. -/
structure System where
  world : World
  calls : Nat
  req : Nat → CmdExecRequest
  pc : Nat → PC
  trace : List (Nat × Event)

/-- Thread `i` moves to `pc`, leaving the world `w` and logging `events`. -/
def System.advance (s : System) (i : Nat) (pc : PC) (w : World) (events : List Event) :
    System :=
  { s with
    world := w
    pc := fun j => if j = i then pc else s.pc j
    trace := s.trace ++ events.map (fun e => (i, e)) }

/-- One step of thread `i`; `out` is what `ExecuteCommand` returns if the step is its
return. `none` when the thread does not exist, has returned, or waits for a locked
mutex. -/
def step (c : JSONCodec) (s : System) (i : Nat) (out : String) : Option System :=
  if i < s.calls then
    let req := s.req i
    let k := key req.id req.cmd
    match s.pc i with
    | .start =>
      let (mutex, w) := getNamedMutex s.world k
      some (s.advance i (.acquire mutex) w [.loadOrStore k])
    | .acquire mutex =>
      if s.world.mutexLocked mutex then none
      else some (s.advance i (.critical mutex) (mutexLock s.world mutex) [.lock mutex])
    | .critical mutex =>
      let (cached, found) := s.world.database.Get k
      if !found then some (s.advance i (.call mutex) s.world [.databaseGet k])
      else some (s.advance i (.deferDelete mutex (okResponse req cached)) s.world
        [.databaseGet k])
    | .call mutex => some (s.advance i (.executing mutex) s.world [.executeCommand req.cmd])
    | .executing mutex => some (s.advance i (.save mutex out) s.world [])
    | .save mutex result =>
      let (err, w) := databaseSet c s.world k result
      match err with
      | some _ =>
        some (s.advance i (.deferDelete mutex saveErrorResponse) w [.databaseSet k result])
      | none =>
        some (s.advance i (.deferDelete mutex (okResponse req result)) w
          [.databaseSet k result])
    | .deferDelete mutex resp =>
      some (s.advance i (.deferUnlock mutex resp) (mapDelete s.world k) [.mapDelete k])
    | .deferUnlock mutex resp =>
      some (s.advance i (.done resp) (mutexUnlock s.world mutex) [.unlock mutex])
    | .done _ => none
  else none

/-- Run a schedule: each entry names the thread that moves and the value
`ExecuteCommand` returns should the step be its return. -/
def run (c : JSONCodec) (s : System) : List (Nat × String) → Option System
  | [] => some s
  | (i, out) :: rest =>
    match step c s i out with
    | none => none
    | some s1 => run c s1 rest

/-- The process at the moment `calls` calls have been accepted and none has taken
a step. -/
def launch (w : World) (calls : Nat) (req : Nat → CmdExecRequest) : System :=
  { world := w, calls := calls, req := req, pc := fun _ => .start, trace := [] }

/-- Number of `ExecuteCommand` invocations so far. -/
def System.execCalls (s : System) : Nat := NP.execCalls (s.trace.map Prod.snd)

/-- Every call has returned. -/
def System.allDone (s : System) : Prop := ∀ i, i < s.calls → ∃ resp, s.pc i = .done resp

/-- What the move of a thread standing at `p`, with request `req`, does: the
statement it stands at, the world before, and then where it stands next, the world
after, and the calls logged. -/
inductive Move (c : JSONCodec) (req : CmdExecRequest) (out : String) (w : World) (p : PC) :
    PC → World → List Event → Prop where
  | loadOrStore (hp : p = .start) :
    Move c req out w p (.acquire (getNamedMutex w (key req.id req.cmd)).1)
      (getNamedMutex w (key req.id req.cmd)).2 [.loadOrStore (key req.id req.cmd)]
  | lock (m : Nat) (hp : p = .acquire m) (hfree : w.mutexLocked m = false) :
    Move c req out w p (.critical m) (mutexLock w m) [.lock m]
  | getMiss (m : Nat) (hp : p = .critical m)
      (hget : w.database.data.get (key req.id req.cmd) = none) :
    Move c req out w p (.call m) w [.databaseGet (key req.id req.cmd)]
  | getHit (m : Nat) (cached : String) (hp : p = .critical m)
      (hget : w.database.data.get (key req.id req.cmd) = some cached) :
    Move c req out w p (.deferDelete m (okResponse req cached)) w
      [.databaseGet (key req.id req.cmd)]
  | enter (m : Nat) (hp : p = .call m) :
    Move c req out w p (.executing m) w [.executeCommand req.cmd]
  | leave (m : Nat) (hp : p = .executing m) : Move c req out w p (.save m out) w []
  | setFail (m : Nat) (result : String) (e : Error) (hp : p = .save m result)
      (herr : (databaseSet c w (key req.id req.cmd) result).1 = some e) :
    Move c req out w p (.deferDelete m saveErrorResponse)
      (databaseSet c w (key req.id req.cmd) result).2
      [.databaseSet (key req.id req.cmd) result]
  | setOk (m : Nat) (result : String) (hp : p = .save m result)
      (herr : (databaseSet c w (key req.id req.cmd) result).1 = none) :
    Move c req out w p (.deferDelete m (okResponse req result))
      (databaseSet c w (key req.id req.cmd) result).2
      [.databaseSet (key req.id req.cmd) result]
  | delete (m : Nat) (resp : Response) (hp : p = .deferDelete m resp) :
    Move c req out w p (.deferUnlock m resp) (mapDelete w (key req.id req.cmd))
      [.mapDelete (key req.id req.cmd)]
  | unlock (m : Nat) (resp : Response) (hp : p = .deferUnlock m resp) :
    Move c req out w p (.done resp) (mutexUnlock w m) [.unlock m]

/-- The lock discipline that every reachable state of the process obeys: a held
mutex is locked and has one holder; mutexes in use were allocated; a locked mutex
that the registry or a waiting call refers to has a holder; and every registry
entry belongs to a call on that key that took it and has not yet run its `Delete`. -/
structure LockInv (s : System) : Prop where
  held_locked : ∀ i m, i < s.calls → (s.pc i).held = some m → s.world.mutexLocked m = true
  held_unique : ∀ i j m, i < s.calls → j < s.calls →
    (s.pc i).held = some m → (s.pc j).held = some m → i = j
  held_lt : ∀ i m, i < s.calls → (s.pc i).held = some m → m < s.world.nextMutex
  waiting_lt : ∀ i m, i < s.calls → (s.pc i).waiting = some m → m < s.world.nextMutex
  reg_lt : ∀ k m, s.world.cmdMutexMap k = some m → m < s.world.nextMutex
  reg_owner : ∀ k m, s.world.cmdMutexMap k = some m → s.world.mutexLocked m = true →
    ∃ j, j < s.calls ∧ (s.pc j).held = some m
  waiting_owner : ∀ i m, i < s.calls → (s.pc i).waiting = some m →
    s.world.mutexLocked m = true → ∃ j, j < s.calls ∧ (s.pc j).held = some m
  reg_user : ∀ k m, s.world.cmdMutexMap k = some m →
    ∃ i, i < s.calls ∧ key (s.req i).id (s.req i).cmd = k ∧ (s.pc i).registered = some m

/-- What holds in every reachable state when all calls carry the request `req`,
the store started without an entry for its key and writes succeed: while the key
has no entry no call has responded, every call that has a mutex has the one in the
registry, and `ExecuteCommand` was invoked once if a call is running it and not at
all otherwise; once the key has an entry `r`, `ExecuteCommand` was invoked once, no
call is computing, and every response is 200 with `r`. -/
structure CoalesceInv (req : CmdExecRequest) (w0 : World) (s : System) : Prop where
  same_req : ∀ i, s.req i = req
  filename : s.world.database.filename = w0.database.filename
  readOnly : s.world.fs.readOnly = w0.fs.readOnly
  miss_early : s.world.database.data.get (key req.id req.cmd) = none →
    ∀ i, i < s.calls → (s.pc i).response = none
  miss_refs : s.world.database.data.get (key req.id req.cmd) = none →
    ∀ i m, i < s.calls → ((s.pc i).held = some m ∨ (s.pc i).waiting = some m) →
      s.world.cmdMutexMap (key req.id req.cmd) = some m
  miss_running : s.world.database.data.get (key req.id req.cmd) = none →
    (∃ i, i < s.calls ∧ (s.pc i).running = true) → s.execCalls = 1
  miss_idle : s.world.database.data.get (key req.id req.cmd) = none →
    (∀ i, i < s.calls → (s.pc i).running = false) → s.execCalls = 0
  hit_count : ∀ r, s.world.database.data.get (key req.id req.cmd) = some r → s.execCalls = 1
  hit_quiet : ∀ r, s.world.database.data.get (key req.id req.cmd) = some r →
    ∀ i, i < s.calls → (s.pc i).computing = false
  hit_resp : ∀ r, s.world.database.data.get (key req.id req.cmd) = some r →
    ∀ i resp, i < s.calls → (s.pc i).response = some resp → resp = okResponse req r

/-- Writes succeed: `json.MarshalIndent` has no error and the store's file can be
written. -/
def WritesSucceed (c : JSONCodec) (w : World) : Prop :=
  (∀ m, ∃ bytes, c.marshalIndent m = .ok bytes) ∧ w.fs.readOnly w.database.filename = false

/-- Total number of statements the calls have got past. -/
def System.progress (s : System) : Nat :=
  ((List.range s.calls).map (fun i => (s.pc i).rank)).sum

/-! ## Concrete values the statements below are evaluated on -/

/-- A small line-oriented codec standing in for `encoding/json`: one `key=value`
line per entry. `parseLines cs k v acc` reads the characters `cs`, with `k` the
key read so far, `v` the value read so far once `=` was seen, and `acc` the
entries already complete, in the order of the file. -/
def parseLines : List Char → List Char → Option (List Char) → GoMap → Option GoMap
  | [], [], none, acc => some acc
  | [], _, _, _ => none
  | c :: cs, k, none, acc =>
    if c = '=' then parseLines cs k (some []) acc
    else if c = '\n' then none
    else parseLines cs (k ++ [c]) none acc
  | c :: cs, k, some v, acc =>
    if c = '\n' then parseLines cs [] none (acc ++ [(String.mk k, String.mk v)])
    else parseLines cs k (some (v ++ [c])) acc

def demoCodec : JSONCodec where
  marshalIndent := fun m => .ok (String.join (m.map (fun e => e.1 ++ "=" ++ e.2 ++ "\n")))
  unmarshal := fun file data =>
    match parseLines file.data [] none [] with
    | none => (some "invalid character", data)
    | some entries => (none, entries.foldl (fun m e => m.set e.1 e.2) data)

/-- A stand-in for `json.Unmarshal` on request bodies: blanks are insignificant,
`deploy#1` is the request (cmd "deploy", id 1), `#0` a document with neither field. -/
def demoUnmarshalRequest (body : String) : Option CmdExecRequest :=
  let cs := body.data.filter (fun c => c != ' ')
  if cs = "deploy#1".data then some ⟨"deploy", 1⟩
  else if cs = "#0".data then some ⟨"", 0⟩
  else none

def demoEnv : Env where
  json := demoCodec
  unmarshalRequest := demoUnmarshalRequest
  ExecuteCommand := fun _ => "OK"

/-- The same environment with an Executor that would answer differently. -/
def otherEnv : Env := { demoEnv with ExecuteCommand := fun _ => "KO" }

/-- A file system with no file, where every write succeeds. -/
def emptyFS : FS where
  file := fun _ => .absent
  readOnly := fun _ => false

/-- A file system with no file, where every write fails. -/
def readOnlyFS : FS where
  file := fun _ => .absent
  readOnly := fun _ => true

/-- A fresh process: empty registry, every mutex unlocked, empty store on `db.json`. -/
def freshWorld (fs : FS) : World where
  cmdMutexMap := fun _ => none
  mutexLocked := fun _ => false
  nextMutex := 0
  database := { filename := "db.json", data := [] }
  fs := fs

/-- A process whose store already holds the entry `1+deploy`. -/
def cachedWorld : World :=
  { freshWorld emptyFS with database := { filename := "db.json", data := [("1+deploy", "old")] } }

def deployRequest : Request := { method := "POST", body := "deploy#1" }

/-- The document `s` followed by `n` blanks. -/
def padded (s : String) (n : Nat) : String := s ++ String.mk (List.replicate n ' ')

/-- A POST request whose body decodes to cmd "deploy", id 1 and is longer than
`maxBytes`: the document followed by 1048576 blanks. -/
def oversizedRequest : Request := { method := "POST", body := padded "deploy#1" 1048576 }

/-- A file system whose only file is `db.json`, with the given content. -/
def oneFileFS (bytes : String) : FS where
  file := fun n => if n = "db.json" then .content bytes else .absent
  readOnly := fun _ => false

/-- Two concurrent calls for `(1, "deploy")`. Call 0 takes the mutex; call 1 gets
the same mutex from the registry and waits; call 0 misses, runs the Executor,
saves, and runs its deferred `Delete`. -/
def deleteSchedule : List (Nat × String) :=
  [(0, ""), (0, ""), (1, ""), (0, ""), (0, ""), (0, "OK"), (0, ""), (0, "")]

/-- The schedule `deleteSchedule` continued to the end: call 0 unlocks and returns,
call 1 takes the mutex, finds the entry, and returns. -/
def fullSchedule : List (Nat × String) :=
  deleteSchedule ++ [(0, ""), (1, ""), (1, ""), (1, ""), (1, "")]

/-- Stands for a byte that is not valid UTF-8 (such as 0xFF) inside a Go string:
Lean strings hold Unicode characters only, so a private-use character takes its
place. -/
def strayByte : Char := Char.ofNat 0xF8FF

/-- The coercion `json.MarshalIndent` applies to every key and value: a byte that is
not valid UTF-8 is written as the replacement character U+FFFD. -/
def coerceUTF8 (s : String) : String :=
  String.mk (s.data.map (fun c => if c = strayByte then Char.ofNat 0xFFFD else c))

/-- The line codec with two behaviours of `encoding/json` added: `marshalIndent`
coerces keys and values to valid UTF-8, and `unmarshal` accepts the document `null`
without error, leaving a nil map (no entries). -/
def goLikeCodec : JSONCodec where
  marshalIndent := fun m =>
    demoCodec.marshalIndent (m.map (fun e => (coerceUTF8 e.1, coerceUTF8 e.2)))
  unmarshal := fun file data =>
    if file = "null" then (none, []) else demoCodec.unmarshal file data

/-- The Go string `"OK\xff"`: two letters and a byte that is not valid UTF-8. -/
def strayValue : String := String.mk ['O', 'K', strayByte]

/-- The string `"OK\ufffd"` that `encoding/json` writes for `strayValue`. -/
def coercedValue : String := String.mk ['O', 'K', Char.ofNat 0xFFFD]
/-! ## Key composition -/

theorem digitChar_toNat {d : Nat} (h : d < 10) : (Nat.digitChar d).toNat - 48 = d := by
  interval_cases d <;> rfl

theorem digitChar_isDigit {d : Nat} (h : d < 10) : (Nat.digitChar d).isDigit = true := by
  interval_cases d <;> rfl

theorem digitsValue_decimalDigits (fuel : Nat) :
    ∀ n acc, n < fuel → digitsValue 0 (decimalDigits fuel n acc) = digitsValue n acc := by
  induction fuel with
  | zero => intro n acc h; omega
  | succ fuel ih =>
    intro n acc h
    unfold decimalDigits
    split
    · rename_i h10
      simp [digitsValue, digitChar_toNat h10]
    · rename_i h10
      rw [ih (n / 10) _ (by omega)]
      have hmod : n % 10 < 10 := Nat.mod_lt _ (by decide)
      simp only [digitsValue, List.foldl_cons, digitChar_toNat hmod]
      congr 1
      omega

theorem decimalDigits_isDigit (fuel : Nat) :
    ∀ n acc c, c ∈ decimalDigits fuel n acc → c.isDigit = true ∨ c ∈ acc := by
  induction fuel with
  | zero => intro n acc c h; exact Or.inr h
  | succ fuel ih =>
    intro n acc c h
    unfold decimalDigits at h
    split at h
    · rename_i h10
      rcases List.mem_cons.mp h with h | h
      · exact Or.inl (h ▸ digitChar_isDigit h10)
      · exact Or.inr h
    · rcases ih _ _ _ h with h | h
      · exact Or.inl h
      · rcases List.mem_cons.mp h with h | h
        · exact Or.inl (h ▸ digitChar_isDigit (Nat.mod_lt _ (by decide)))
        · exact Or.inr h

theorem formatNat_isDigit {n : Nat} {c : Char} (h : c ∈ formatNat n) : c.isDigit = true := by
  rcases decimalDigits_isDigit _ _ _ _ h with h | h
  · exact h
  · simp at h

theorem formatNat_injective {n m : Nat} (h : formatNat n = formatNat m) : n = m := by
  have hn := digitsValue_decimalDigits (n + 1) n [] (by omega)
  have hm := digitsValue_decimalDigits (m + 1) m [] (by omega)
  unfold formatNat at h
  rw [h, hm] at hn
  simpa [digitsValue] using hn.symm

theorem formatNat_ne_minus (n m : Nat) : formatNat n ≠ '-' :: formatNat m := by
  intro h
  have : ('-' : Char) ∈ formatNat n := by rw [h]; exact List.mem_cons_self _ _
  exact absurd (formatNat_isDigit this) (by decide)

theorem formatInt_injective {a b : Int} (h : formatInt a = formatInt b) : a = b := by
  cases a with
  | ofNat n =>
    cases b with
    | ofNat m => exact congrArg Int.ofNat (formatNat_injective h)
    | negSucc m => exact absurd h (formatNat_ne_minus _ _)
  | negSucc n =>
    cases b with
    | ofNat m => exact absurd h.symm (formatNat_ne_minus _ _)
    | negSucc m =>
      have h1 : formatNat (n + 1) = formatNat (m + 1) := (List.cons.inj h).2
      have := formatNat_injective h1
      exact congrArg Int.negSucc (by omega)

theorem formatInt_no_plus (a : Int) : '+' ∉ formatInt a := by
  intro h
  cases a with
  | ofNat n => exact absurd (formatNat_isDigit h) (by decide)
  | negSucc n =>
    rcases List.mem_cons.mp h with h | h
    · exact absurd h (by decide)
    · exact absurd (formatNat_isDigit h) (by decide)

/-- Splitting at the first separator: two strings without `s` followed by `s` and a rest. -/
theorem append_sep_inj {α : Type} {s : α} :
    ∀ {l1 l2 r1 r2 : List α}, s ∉ l1 → s ∉ l2 →
      l1 ++ s :: r1 = l2 ++ s :: r2 → l1 = l2 ∧ r1 = r2 := by
  intro l1
  induction l1 with
  | nil =>
    intro l2 r1 r2 _ h2 h
    cases l2 with
    | nil => exact ⟨rfl, (List.cons.inj h).2⟩
    | cons x l2 =>
      have := (List.cons.inj h).1
      exact absurd (this ▸ List.mem_cons_self _ _) h2
  | cons x l1 ih =>
    intro l2 r1 r2 h1 h2 h
    cases l2 with
    | nil =>
      have := (List.cons.inj h).1
      exact absurd (this ▸ List.mem_cons_self _ _) h1
    | cons y l2 =>
      have hx := List.cons.inj h
      have := ih (fun hm => h1 (List.mem_cons_of_mem _ hm))
        (fun hm => h2 (List.mem_cons_of_mem _ hm)) hx.2
      exact ⟨by rw [hx.1, this.1], this.2⟩

theorem key_data (id : Int) (cmd : String) :
    (key id cmd).data = formatInt id ++ '+' :: cmd.data := by
  simp [key, String.data_append]

/-- C4: the key composition of `handleCommand` is injective on `(id, cmd)`, for
every integer id (negative ones included) and every command string (also with a
plus sign in it); in particular `(1, "2+x")` and `(12, "x")` get different keys. -/
theorem key_injective :
    (∀ (id1 id2 : Int) (cmd1 cmd2 : String),
        key id1 cmd1 = key id2 cmd2 → id1 = id2 ∧ cmd1 = cmd2) ∧
      key 1 "2+x" ≠ key 12 "x" := by
  have hinj : ∀ (id1 id2 : Int) (cmd1 cmd2 : String),
      key id1 cmd1 = key id2 cmd2 → id1 = id2 ∧ cmd1 = cmd2 := by
    intro id1 id2 cmd1 cmd2 h
    have hd := congrArg String.data h
    rw [key_data, key_data] at hd
    have := append_sep_inj (formatInt_no_plus id1) (formatInt_no_plus id2) hd
    exact ⟨formatInt_injective this.1, String.ext this.2⟩
  refine ⟨hinj, fun h => ?_⟩
  exact absurd (hinj _ _ _ _ h).1 (by decide)

theorem key_injective_witness :
    key 1 "2+x" = "1+2+x" ∧ key 12 "x" = "12+x" ∧ key (-7) "a+b" = "-7+a+b" ∧
      ((-7 : Int) = -7 ∧ "a+b" = "a+b") :=
  ⟨by decide, by decide, by decide, key_injective.1 (-7) (-7) "a+b" "a+b" rfl⟩

/-! ## The store's map -/

theorem lookup_cons_same (k v : String) (m : GoMap) : List.lookup k ((k, v) :: m) = some v := by
  rw [List.lookup_cons]
  have : (k == k) = true := by simp
  rw [this]

theorem lookup_cons_other {k k1 : String} (v : String) (m : GoMap) (h : k1 ≠ k) :
    List.lookup k1 ((k, v) :: m) = List.lookup k1 m := by
  rw [List.lookup_cons]
  have : (k1 == k) = false := by simpa using h
  rw [this]

theorem lookup_filter_ne (k k1 : String) (m : GoMap) :
    List.lookup k1 (m.filter (fun e => e.1 != k)) = if k1 = k then none else List.lookup k1 m := by
  induction m with
  | nil => simp
  | cons e m ih =>
    obtain ⟨a, b⟩ := e
    by_cases hak : a = k
    · subst hak
      have hf : ((a, b) :: m).filter (fun e => e.1 != a) = m.filter (fun e => e.1 != a) := by
        simp [List.filter_cons]
      rw [hf, ih]
      by_cases h1 : k1 = a
      · simp [h1]
      · simp only [h1, if_false]
        exact (lookup_cons_other b m h1).symm
    · have hf : ((a, b) :: m).filter (fun e => e.1 != k)
          = (a, b) :: m.filter (fun e => e.1 != k) := by
        simp [List.filter_cons, hak]
      rw [hf]
      by_cases h2 : k1 = a
      · subst h2
        rw [lookup_cons_same, lookup_cons_same]
        simp [hak]
      · rw [lookup_cons_other _ _ h2, lookup_cons_other _ _ h2, ih]

theorem GoMap.get_set_same (m : GoMap) (k v : String) : (m.set k v).get k = some v := by
  unfold GoMap.get GoMap.set
  exact lookup_cons_same _ _ _

theorem GoMap.get_set_other (m : GoMap) {k k1 : String} (v : String) (h : k1 ≠ k) :
    (m.set k v).get k1 = m.get k1 := by
  unfold GoMap.get GoMap.set
  rw [lookup_cons_other _ _ h, lookup_filter_ne]
  simp [h]

theorem fileDB.Get_eq_true {s : fileDB} {k v : String} :
    s.Get k = (v, true) ↔ s.data.get k = some v := by
  unfold fileDB.Get
  cases s.data.get k <;> simp

theorem fileDB.Get_snd_false {s : fileDB} {k : String} :
    (s.Get k).2 = false ↔ s.data.get k = none := by
  unfold fileDB.Get
  cases s.data.get k <;> simp

/-! ## One call of handleCommand -/

theorem getNamedMutex_database (w : World) (k : String) :
    (getNamedMutex w k).2.database = w.database ∧ (getNamedMutex w k).2.fs = w.fs := by
  unfold getNamedMutex
  cases w.cmdMutexMap k <;> simp

theorem getNamedMutex_free {w : World} {k : String} (h : keyFree w k) :
    (getNamedMutex w k).2.mutexLocked (getNamedMutex w k).1 = false := by
  unfold keyFree at h
  unfold getNamedMutex
  cases hk : w.cmdMutexMap k with
  | none => simp
  | some m =>
    rw [hk] at h
    simp only at h
    simp [h]

/-- The three ways a validated call ends: blocked on a locked mutex, a cache hit, or
a miss followed by `ExecuteCommand` and `database.Set`. -/
theorem coordinate_cases (env : Env) (w : World) (req : CmdExecRequest) (k : String)
    (m : Nat) (w1 : World) (hk : k = key req.id req.cmd) (h : getNamedMutex w k = (m, w1)) :
    (w1.mutexLocked m = true ∧
      coordinate env w req = { response := none, world := w1, trace := [.loadOrStore k] }) ∨
    (w1.mutexLocked m = false ∧ ∃ cached, w.database.data.get k = some cached ∧
      coordinate env w req =
        { response := some (okResponse req cached)
          world := runDeferred (mutexLock w1 m) k m
          trace := [.loadOrStore k, .lock m, .databaseGet k, .mapDelete k, .unlock m] }) ∨
    (w1.mutexLocked m = false ∧ w.database.data.get k = none ∧
      coordinate env w req =
        { response := some
            (match (databaseSet env.json (mutexLock w1 m) k (env.ExecuteCommand req.cmd)).1 with
              | some _ => saveErrorResponse
              | none => okResponse req (env.ExecuteCommand req.cmd))
          world := runDeferred
            (databaseSet env.json (mutexLock w1 m) k (env.ExecuteCommand req.cmd)).2 k m
          trace := [.loadOrStore k, .lock m, .databaseGet k, .executeCommand req.cmd,
            .databaseSet k (env.ExecuteCommand req.cmd), .mapDelete k, .unlock m] }) := by
  subst hk
  have hdb : w1.database = w.database := by
    have := (getNamedMutex_database w (key req.id req.cmd)).1
    rw [h] at this
    exact this
  cases hl : w1.mutexLocked m with
  | true =>
    left
    refine ⟨rfl, ?_⟩
    simp only [coordinate, h]
    rw [if_pos hl]
  | false =>
    right
    cases hg : w.database.data.get (key req.id req.cmd) with
    | some cached =>
      left
      refine ⟨rfl, cached, rfl, ?_⟩
      simp only [coordinate, h]
      rw [if_neg (by simp [hl])]
      simp [mutexLock, fileDB.Get, hdb, hg, okResponse]
    | none =>
      right
      refine ⟨rfl, rfl, ?_⟩
      simp only [coordinate, h]
      rw [if_neg (by simp [hl])]
      simp only [mutexLock, fileDB.Get, hdb, hg]
      cases he : (databaseSet env.json (mutexLock w1 m) (key req.id req.cmd)
          (env.ExecuteCommand req.cmd)).1 <;>
        simp_all [mutexLock, okResponse, saveErrorResponse]

theorem databaseSet_world (c : JSONCodec) (w : World) (k v : String) :
    (databaseSet c w k v).2.cmdMutexMap = w.cmdMutexMap ∧
    (databaseSet c w k v).2.mutexLocked = w.mutexLocked ∧
    (databaseSet c w k v).2.nextMutex = w.nextMutex ∧
    (databaseSet c w k v).2.database = { w.database with data := w.database.data.set k v } ∧
    (databaseSet c w k v).1 = (w.database.Set c w.fs k v).1 := by
  simp [databaseSet, fileDB.Set]

theorem runDeferred_world (w : World) (k : String) (m : Nat) :
    (runDeferred w k m).cmdMutexMap = (fun x => if x = k then none else w.cmdMutexMap x) ∧
    (runDeferred w k m).mutexLocked = (fun x => if x = m then false else w.mutexLocked x) ∧
    (runDeferred w k m).database = w.database ∧ (runDeferred w k m).fs = w.fs := by
  simp [runDeferred, mutexUnlock, mapDelete]

theorem handleCommand_accepted {env : Env} {r : Request} {req : CmdExecRequest}
    (h : Accepted env r req) (w : World) : handleCommand env w r = coordinate env w req := by
  obtain ⟨h1, h2, h3, h4, h5⟩ := h
  unfold handleCommand
  rw [if_neg (by simp [h1]), if_neg (by omega), h3]
  simp [h4, h5]

/-- Every call is either turned away by validation, leaving the world alone, or is
the coordinator run on the decoded request. -/
theorem handleCommand_cases (env : Env) (w : World) (r : Request) :
    ((handleCommand env w r).world = w ∧ (handleCommand env w r).trace = []) ∨
    ∃ req, Accepted env r req ∧ handleCommand env w r = coordinate env w req := by
  by_cases h1 : r.method = MethodPost
  · by_cases h2 : maxBytes < r.body.utf8ByteSize
    · left; simp [handleCommand, h1, h2]
    · cases h3 : env.unmarshalRequest r.body with
      | none => left; simp [handleCommand, h1, h2, h3]
      | some req =>
        by_cases h4 : req.cmd = "" ∨ req.id = 0
        · left; simp only [handleCommand, h1, h2, h3]; simp [h4]
        · right
          have hacc : Accepted env r req := by
            refine ⟨h1, by omega, h3, ?_, ?_⟩
            · exact fun h => h4 (Or.inl h)
            · exact fun h => h4 (Or.inr h)
          exact ⟨req, hacc, handleCommand_accepted hacc w⟩
  · left; simp [handleCommand, h1]

theorem getNamedMutex_keyFree {w : World} (k k1 : String) (h : keyFree w k1) :
    keyFree (getNamedMutex w k).2 k1 := by
  unfold keyFree at h ⊢
  unfold getNamedMutex
  cases hk : w.cmdMutexMap k with
  | none =>
    simp only
    by_cases hkk : k1 = k
    · simp [hkk]
    · simp only [hkk, if_false]
      cases h1 : w.cmdMutexMap k1 with
      | none => trivial
      | some m1 =>
        rw [h1] at h
        simp only at h ⊢
        simp [h]
  | some m =>
    simp only
    cases h1 : w.cmdMutexMap k1 with
    | none => trivial
    | some m1 =>
      rw [h1] at h
      simp only at h ⊢
      simp [h]

theorem keyFree_runDeferred {w : World} {k k1 : String} {m : Nat}
    (h : ∀ m1, w.cmdMutexMap k1 = some m1 → m1 ≠ m → w.mutexLocked m1 = false) :
    keyFree (runDeferred w k m) k1 := by
  unfold keyFree
  obtain ⟨hreg, hlock, _, _⟩ := runDeferred_world w k m
  rw [hreg, hlock]
  by_cases hk : k1 = k
  · simp [hk]
  · simp only [hk, if_false]
    cases h1 : w.cmdMutexMap k1 with
    | none => trivial
    | some m1 =>
      simp only
      by_cases hm : m1 = m
      · simp [hm]
      · simp [hm, h m1 h1 hm]

theorem coordinate_keyFree (env : Env) {w : World} (req : CmdExecRequest) {k1 : String}
    (h : keyFree w k1) : keyFree (coordinate env w req).world k1 := by
  rcases hgm : getNamedMutex w (key req.id req.cmd) with ⟨m, w1⟩
  have h1 : keyFree w1 k1 := by
    have := getNamedMutex_keyFree (key req.id req.cmd) k1 h
    rw [hgm] at this
    exact this
  have hfree : ∀ (w2 : World), w2.cmdMutexMap = w1.cmdMutexMap →
      (∀ x, x ≠ m → w2.mutexLocked x = w1.mutexLocked x) →
      keyFree (runDeferred w2 (key req.id req.cmd) m) k1 := by
    intro w2 hreg hlock
    apply keyFree_runDeferred
    intro m1 hm1 hne
    rw [hlock m1 hne]
    unfold keyFree at h1
    rw [hreg] at hm1
    rw [hm1] at h1
    exact h1
  rcases coordinate_cases env w req _ m w1 rfl hgm with ⟨_, hc⟩ | ⟨_, _, _, hc⟩ | ⟨_, _, hc⟩
  · rw [hc]; exact h1
  · rw [hc]
    exact hfree _ rfl (fun x hx => by simp [mutexLock, hx])
  · rw [hc]
    obtain ⟨hreg, hlock, _, _, _⟩ := databaseSet_world env.json (mutexLock w1 m)
      (key req.id req.cmd) (env.ExecuteCommand req.cmd)
    exact hfree _ (by rw [hreg]; rfl) (fun x hx => by rw [hlock]; simp [mutexLock, hx])

theorem handleCommand_keyFree (env : Env) {w : World} (r : Request) {k1 : String}
    (h : keyFree w k1) : keyFree (handleCommand env w r).world k1 := by
  rcases handleCommand_cases env w r with ⟨hw, _⟩ | ⟨req, _, hc⟩
  · rw [hw]; exact h
  · rw [hc]; exact coordinate_keyFree env req h

/-- A call never changes or removes an entry the store already has. -/
theorem coordinate_keeps_entry (env : Env) {w : World} (req : CmdExecRequest) {k1 v : String}
    (h : w.database.data.get k1 = some v) :
    (coordinate env w req).world.database.data.get k1 = some v := by
  rcases hgm : getNamedMutex w (key req.id req.cmd) with ⟨m, w1⟩
  have hdb : w1.database = w.database := by
    have := (getNamedMutex_database w (key req.id req.cmd)).1
    rw [hgm] at this
    exact this
  rcases coordinate_cases env w req _ m w1 rfl hgm with ⟨_, hc⟩ | ⟨_, _, _, hc⟩ | ⟨_, hmiss, hc⟩
  · rw [hc]; simp only; rw [hdb]; exact h
  · rw [hc]; simp only
    rw [(runDeferred_world _ _ _).2.2.1]
    simp only [mutexLock]; rw [hdb]; exact h
  · rw [hc]; simp only
    rw [(runDeferred_world _ _ _).2.2.1, (databaseSet_world _ _ _ _).2.2.2.1]
    simp only [mutexLock]; rw [hdb]
    have hne : k1 ≠ key req.id req.cmd := by
      intro he
      rw [he, hmiss] at h
      exact absurd h (by simp)
    rw [GoMap.get_set_other _ _ hne]
    exact h

theorem handleCommand_keeps_entry (env : Env) {w : World} (r : Request) {k1 v : String}
    (h : w.database.data.get k1 = some v) :
    (handleCommand env w r).world.database.data.get k1 = some v := by
  rcases handleCommand_cases env w r with ⟨hw, _⟩ | ⟨req, _, hc⟩
  · rw [hw]; exact h
  · rw [hc]; exact coordinate_keeps_entry env req h

theorem serve_keeps {w : World} (calls : List (Env × Request)) {k1 v : String}
    (hfree : keyFree w k1) (h : w.database.data.get k1 = some v) :
    keyFree (serve w calls) k1 ∧ (serve w calls).database.data.get k1 = some v := by
  induction calls generalizing w with
  | nil => exact ⟨hfree, h⟩
  | cons c calls ih =>
    obtain ⟨env, r⟩ := c
    exact ih (handleCommand_keyFree env r hfree) (handleCommand_keeps_entry env r h)

/-! ## C2, C3, C7, C10: hit path, miss path, failed write -/

theorem okResponse_ne_saveError (req : CmdExecRequest) (v : String) :
    saveErrorResponse ≠ okResponse req v := by
  simp [saveErrorResponse, okResponse, writeJSON]

theorem okResponse_inj {req : CmdExecRequest} {v v1 : String}
    (h : okResponse req v = okResponse req v1) : v = v1 := by
  simpa [okResponse, writeJSON] using h

/-- Under a free key a call that finds the entry answers from the store. -/
theorem coordinate_hit (env : Env) {w : World} (req : CmdExecRequest) {cached : String}
    (hhit : w.database.data.get (key req.id req.cmd) = some cached) :
    execCalls (coordinate env w req).trace = 0 ∧ setCalls (coordinate env w req).trace = 0 ∧
    (coordinate env w req).world.database = w.database ∧
    (coordinate env w req).world.fs = w.fs ∧
    (keyFree w (key req.id req.cmd) →
      (coordinate env w req).response = some (okResponse req cached) ∧
      (coordinate env w req).trace =
        [.loadOrStore (key req.id req.cmd), .lock (getNamedMutex w (key req.id req.cmd)).1,
          .databaseGet (key req.id req.cmd), .mapDelete (key req.id req.cmd),
          .unlock (getNamedMutex w (key req.id req.cmd)).1]) := by
  rcases hgm : getNamedMutex w (key req.id req.cmd) with ⟨m, w1⟩
  have hdb := getNamedMutex_database w (key req.id req.cmd)
  rw [hgm] at hdb
  rcases coordinate_cases env w req _ m w1 rfl hgm with ⟨hl, hc⟩ | ⟨_, c, hget, hc⟩ | ⟨_, hmiss, _⟩
  · rw [hc]
    refine ⟨rfl, rfl, hdb.1, hdb.2, fun hfree => ?_⟩
    have := getNamedMutex_free hfree
    rw [hgm] at this
    simp only at this
    rw [this] at hl
    exact absurd hl (by simp)
  · rw [hc]
    rw [hhit] at hget
    cases hget
    refine ⟨rfl, rfl, ?_, ?_, fun _ => ⟨rfl, rfl⟩⟩
    · rw [(runDeferred_world _ _ _).2.2.1]; exact hdb.1
    · rw [(runDeferred_world _ _ _).2.2.2]; exact hdb.2
  · rw [hhit] at hmiss
    exact absurd hmiss (by simp)

/-- A call that answered 200 with `result` leaves the key free and stored with `result`. -/
theorem coordinate_success (env : Env) {w : World} (req : CmdExecRequest) {result : String}
    (h : (coordinate env w req).response = some (okResponse req result)) :
    keyFree (coordinate env w req).world (key req.id req.cmd) ∧
    (coordinate env w req).world.database.data.get (key req.id req.cmd) = some result := by
  rcases hgm : getNamedMutex w (key req.id req.cmd) with ⟨m, w1⟩
  have hdb := getNamedMutex_database w (key req.id req.cmd)
  rw [hgm] at hdb
  have hfree : ∀ w2, keyFree (runDeferred w2 (key req.id req.cmd) m) (key req.id req.cmd) := by
    intro w2
    unfold keyFree
    rw [(runDeferred_world _ _ _).1]
    simp
  rcases coordinate_cases env w req _ m w1 rfl hgm with ⟨_, hc⟩ | ⟨_, c, hget, hc⟩ | ⟨_, _, hc⟩
  · rw [hc] at h
    exact absurd h (by simp)
  · rw [hc] at h ⊢
    have hcr : c = result := okResponse_inj (Option.some.inj h)
    refine ⟨hfree _, ?_⟩
    simp only
    rw [(runDeferred_world _ _ _).2.2.1]
    simp only [mutexLock]
    rw [hdb.1, hget, hcr]
  · rw [hc] at h ⊢
    refine ⟨hfree _, ?_⟩
    simp only at h ⊢
    rw [(runDeferred_world _ _ _).2.2.1, (databaseSet_world _ _ _ _).2.2.2.1]
    simp only
    cases he : (databaseSet env.json (mutexLock w1 m) (key req.id req.cmd)
        (env.ExecuteCommand req.cmd)).1 with
    | some e =>
      rw [he] at h
      exact absurd (Option.some.inj h) (okResponse_ne_saveError _ _)
    | none =>
      rw [he] at h
      rw [← okResponse_inj (Option.some.inj h)]
      exact GoMap.get_set_same _ _ _

/-- C2 (hit path): a valid request whose key has an entry `cached` in the store
makes no call of `ExecuteCommand` and none of `database.Set`, leaves the store and
its file as they were and, the key's mutex being free, responds 200 with
`cmd`, `id` and `result = cached`. Consequently, once a request for a key was
answered 200 with `result`, a later request for the same key, after any other calls
and whatever its Executor would return, is answered 200 with `result` without
invoking `ExecuteCommand`. -/
theorem cache_hit_idempotent :
    (∀ (env : Env) (w : World) (r : Request) (req : CmdExecRequest) (cached : String),
      Accepted env r req → w.database.Get (key req.id req.cmd) = (cached, true) →
        execCalls (handleCommand env w r).trace = 0 ∧
        setCalls (handleCommand env w r).trace = 0 ∧
        (handleCommand env w r).world.database = w.database ∧
        (handleCommand env w r).world.fs = w.fs ∧
        (keyFree w (key req.id req.cmd) →
          (handleCommand env w r).response = some (okResponse req cached))) ∧
    (∀ (env : Env) (w : World) (r : Request) (req : CmdExecRequest) (result : String)
        (calls : List (Env × Request)) (env2 : Env) (r2 : Request),
      Accepted env r req → (handleCommand env w r).response = some (okResponse req result) →
      Accepted env2 r2 req →
        (handleCommand env2 (serve (handleCommand env w r).world calls) r2).response
            = some (okResponse req result) ∧
        execCalls (handleCommand env2 (serve (handleCommand env w r).world calls) r2).trace
            = 0) := by
  constructor
  · intro env w r req cached hacc hhit
    rw [handleCommand_accepted hacc]
    have h := coordinate_hit env req (fileDB.Get_eq_true.mp hhit)
    exact ⟨h.1, h.2.1, h.2.2.1, h.2.2.2.1, fun hf => (h.2.2.2.2 hf).1⟩
  · intro env w r req result calls env2 r2 hacc hresp hacc2
    rw [handleCommand_accepted hacc] at hresp ⊢
    obtain ⟨hfree, hget⟩ := coordinate_success env req hresp
    obtain ⟨hfree2, hget2⟩ := serve_keeps calls hfree hget
    rw [handleCommand_accepted hacc2]
    have h := coordinate_hit env2 req hget2
    exact ⟨(h.2.2.2.2 hfree2).1, h.1⟩

theorem cache_hit_idempotent_witness :
    (handleCommand otherEnv cachedWorld deployRequest).response
        = some (okResponse ⟨"deploy", 1⟩ "old") ∧
    (handleCommand demoEnv (freshWorld emptyFS) deployRequest).response
        = some (okResponse ⟨"deploy", 1⟩ "OK") ∧
    (handleCommand otherEnv
        (serve (handleCommand demoEnv (freshWorld emptyFS) deployRequest).world
          [(otherEnv, ⟨"GET", ""⟩)]) deployRequest).response
        = some (okResponse ⟨"deploy", 1⟩ "OK") :=
  ⟨(cache_hit_idempotent.1 otherEnv cachedWorld deployRequest ⟨"deploy", 1⟩ "old"
      (by decide) (by decide)).2.2.2.2 (by decide),
    by decide,
    (cache_hit_idempotent.2 demoEnv (freshWorld emptyFS) deployRequest ⟨"deploy", 1⟩ "OK"
      [(otherEnv, ⟨"GET", ""⟩)] otherEnv deployRequest (by decide) (by decide) (by decide)).1⟩

/-- Under a free key a call that finds no entry runs the Executor once and saves. -/
theorem coordinate_miss (env : Env) {w : World} (req : CmdExecRequest)
    (hfree : keyFree w (key req.id req.cmd))
    (hmiss : w.database.data.get (key req.id req.cmd) = none) :
    (coordinate env w req).trace =
      [.loadOrStore (key req.id req.cmd), .lock (getNamedMutex w (key req.id req.cmd)).1,
        .databaseGet (key req.id req.cmd), .executeCommand req.cmd,
        .databaseSet (key req.id req.cmd) (env.ExecuteCommand req.cmd),
        .mapDelete (key req.id req.cmd), .unlock (getNamedMutex w (key req.id req.cmd)).1] ∧
    (coordinate env w req).response = some
      (match (w.database.Set env.json w.fs (key req.id req.cmd) (env.ExecuteCommand req.cmd)).1 with
        | some _ => saveErrorResponse
        | none => okResponse req (env.ExecuteCommand req.cmd)) ∧
    (coordinate env w req).world.database =
      (w.database.Set env.json w.fs (key req.id req.cmd) (env.ExecuteCommand req.cmd)).2.1 ∧
    (coordinate env w req).world.fs =
      (w.database.Set env.json w.fs (key req.id req.cmd) (env.ExecuteCommand req.cmd)).2.2 ∧
    (coordinate env w req).world.cmdMutexMap (key req.id req.cmd) = none ∧
    (coordinate env w req).world.mutexLocked (getNamedMutex w (key req.id req.cmd)).1 = false := by
  have hl := getNamedMutex_free hfree
  rcases hgm : getNamedMutex w (key req.id req.cmd) with ⟨m, w1⟩
  have hdb := getNamedMutex_database w (key req.id req.cmd)
  rw [hgm] at hdb hl
  simp only at hl hdb
  have hset : databaseSet env.json (mutexLock w1 m) (key req.id req.cmd)
      (env.ExecuteCommand req.cmd) =
      ((w.database.Set env.json w.fs (key req.id req.cmd) (env.ExecuteCommand req.cmd)).1,
        { mutexLock w1 m with
          database := (w.database.Set env.json w.fs (key req.id req.cmd)
            (env.ExecuteCommand req.cmd)).2.1
          fs := (w.database.Set env.json w.fs (key req.id req.cmd)
            (env.ExecuteCommand req.cmd)).2.2 }) := by
    simp only [databaseSet, mutexLock]
    rw [hdb.1, hdb.2]
  rcases coordinate_cases env w req _ m w1 rfl hgm with ⟨hl1, _⟩ | ⟨_, c, hget, _⟩ | ⟨_, _, hc⟩
  · rw [hl] at hl1
    exact absurd hl1 (by simp)
  · rw [hmiss] at hget
    exact absurd hget (by simp)
  · rw [hc, hset]
    refine ⟨rfl, rfl, ?_, ?_, ?_, ?_⟩
    · simp only; rw [(runDeferred_world _ _ _).2.2.1]
    · simp only; rw [(runDeferred_world _ _ _).2.2.2]
    · simp only; rw [(runDeferred_world _ _ _).1]; simp
    · simp only; rw [(runDeferred_world _ _ _).2.1]; simp

/-- C3 (miss path): for a valid request whose key has no entry, the key's mutex
being free, when the write of `database.Set` succeeds, `handleCommand` invokes
`ExecuteCommand(cmd)` exactly once (and calls `Set` once, with the key and the
Executor's result), responds 200 with `cmd`, `id` and that result, and the store
afterwards maps the key to the result and agrees with the prior store on every
other key. -/
theorem cache_miss (env : Env) (w : World) (r : Request) (req : CmdExecRequest)
    (hreq : Accepted env r req) (hfree : keyFree w (key req.id req.cmd))
    (hmiss : (w.database.Get (key req.id req.cmd)).2 = false)
    (hwrite : (w.database.Set env.json w.fs (key req.id req.cmd)
      (env.ExecuteCommand req.cmd)).1 = none) :
    execCalls (handleCommand env w r).trace = 1 ∧
    Event.executeCommand req.cmd ∈ (handleCommand env w r).trace ∧
    setCalls (handleCommand env w r).trace = 1 ∧
    Event.databaseSet (key req.id req.cmd) (env.ExecuteCommand req.cmd)
      ∈ (handleCommand env w r).trace ∧
    (handleCommand env w r).response = some (okResponse req (env.ExecuteCommand req.cmd)) ∧
    (handleCommand env w r).world.database.Get (key req.id req.cmd)
      = (env.ExecuteCommand req.cmd, true) ∧
    (∀ k1, k1 ≠ key req.id req.cmd →
      (handleCommand env w r).world.database.Get k1 = w.database.Get k1) := by
  rw [handleCommand_accepted hreq]
  obtain ⟨htr, hresp, hdb, _, _, _⟩ :=
    coordinate_miss env req hfree (fileDB.Get_snd_false.mp hmiss)
  rw [hwrite] at hresp
  refine ⟨?_, ?_, ?_, ?_, hresp, ?_, ?_⟩
  · rw [htr]; rfl
  · rw [htr]; simp
  · rw [htr]; rfl
  · rw [htr]; simp
  · rw [hdb]
    exact fileDB.Get_eq_true.mpr (GoMap.get_set_same _ _ _)
  · intro k1 hk1
    rw [hdb]
    simp only [fileDB.Get, fileDB.Set]
    rw [GoMap.get_set_other _ _ hk1]

/-- The scenario of the specification: key `1+deploy`, the Executor returning `OK`,
an empty store; the stored entry is `1+deploy ↦ OK`, in memory and in the file. -/
theorem cache_miss_witness :
    key 1 "deploy" = "1+deploy" ∧
    (handleCommand demoEnv (freshWorld emptyFS) deployRequest).world.database.data
      = [("1+deploy", "OK")] ∧
    (handleCommand demoEnv (freshWorld emptyFS) deployRequest).world.fs.file "db.json"
      = .content "1+deploy=OK\n" ∧
    (handleCommand demoEnv (freshWorld emptyFS) deployRequest).response
      = some (okResponse ⟨"deploy", 1⟩ "OK") :=
  ⟨by decide, by decide, by decide,
    (cache_miss demoEnv (freshWorld emptyFS) deployRequest ⟨"deploy", 1⟩
      (by decide) (by decide) (by decide) (by decide)).2.2.2.2.1⟩

/-- C7: for a valid request that misses the cache, the key's mutex being free, if
`database.Set` returns an error then `handleCommand` responds with the error body
"Error saving result." and status 500 (so not a 200 with a result), and the deferred
calls still run: the registry entry of the key is removed and the mutex released. -/
theorem save_error_reported (env : Env) (w : World) (r : Request) (req : CmdExecRequest)
    (e : Error) (hreq : Accepted env r req) (hfree : keyFree w (key req.id req.cmd))
    (hmiss : (w.database.Get (key req.id req.cmd)).2 = false)
    (hfail : (w.database.Set env.json w.fs (key req.id req.cmd)
      (env.ExecuteCommand req.cmd)).1 = some e) :
    (handleCommand env w r).response
      = some ⟨.apiError ⟨"Error saving result."⟩, 500⟩ ∧
    (∀ resp, (handleCommand env w r).response = some resp → resp.status ≠ StatusOK) ∧
    (handleCommand env w r).world.cmdMutexMap (key req.id req.cmd) = none ∧
    (handleCommand env w r).world.mutexLocked (getNamedMutex w (key req.id req.cmd)).1 = false ∧
    (handleCommand env w r).trace.drop 5 =
      [.mapDelete (key req.id req.cmd), .unlock (getNamedMutex w (key req.id req.cmd)).1] := by
  rw [handleCommand_accepted hreq]
  obtain ⟨htr, hresp, _, _, hreg, hlock⟩ :=
    coordinate_miss env req hfree (fileDB.Get_snd_false.mp hmiss)
  rw [hfail] at hresp
  simp only at hresp
  refine ⟨hresp, ?_, hreg, hlock, ?_⟩
  · intro resp hr
    rw [hresp] at hr
    cases hr
    decide
  · rw [htr]; rfl

theorem save_error_reported_witness :
    (handleCommand demoEnv (freshWorld readOnlyFS) deployRequest).response
      = some ⟨.apiError ⟨"Error saving result."⟩, 500⟩ ∧
    (handleCommand demoEnv (freshWorld readOnlyFS) deployRequest).world.cmdMutexMap "1+deploy"
      = none ∧
    (handleCommand demoEnv (freshWorld readOnlyFS) deployRequest).world.mutexLocked 0 = false :=
  have h := save_error_reported demoEnv (freshWorld readOnlyFS) deployRequest ⟨"deploy", 1⟩
    Error.io (by decide) (by decide) (by decide) (by decide)
  ⟨h.1, h.2.2.1, h.2.2.2.1⟩

/-- C10: when the write inside `Set(k, v)` fails, `Set` returns the error and a
following `Get(k)` returns `(v, true)`. Hence after a request that ended in
"Error saving result.", the next request for the same `(id, cmd)` responds 200 with
that result, which never reached the file, without invoking `ExecuteCommand` and
without calling `Set` (so without another write). -/
theorem failed_write_still_cached :
    (∀ (c : JSONCodec) (s : fileDB) (fs : FS) (k v : String) (e : Error),
      (fileDB.writeFile c { s with data := s.data.set k v } fs).1 = some e →
        (s.Set c fs k v).1 = some e ∧ (s.Set c fs k v).2.1.Get k = (v, true)) ∧
    (∀ (env : Env) (w : World) (r : Request) (req : CmdExecRequest) (e : Error)
        (env2 : Env) (r2 : Request),
      Accepted env r req → keyFree w (key req.id req.cmd) →
      (w.database.Get (key req.id req.cmd)).2 = false →
      (w.database.Set env.json w.fs (key req.id req.cmd) (env.ExecuteCommand req.cmd)).1 = some e →
      Accepted env2 r2 req →
        (handleCommand env w r).response = some saveErrorResponse ∧
        (handleCommand env2 (handleCommand env w r).world r2).response
          = some (okResponse req (env.ExecuteCommand req.cmd)) ∧
        execCalls (handleCommand env2 (handleCommand env w r).world r2).trace = 0 ∧
        setCalls (handleCommand env2 (handleCommand env w r).world r2).trace = 0 ∧
        (handleCommand env2 (handleCommand env w r).world r2).world.fs
          = (handleCommand env w r).world.fs) := by
  constructor
  · intro c s fs k v e h
    refine ⟨?_, ?_⟩
    · simpa [fileDB.Set] using h
    · exact fileDB.Get_eq_true.mpr (by simp [fileDB.Set, GoMap.get_set_same])
  · intro env w r req e env2 r2 hreq hfree hmiss hfail hreq2
    rw [handleCommand_accepted hreq]
    obtain ⟨_, hresp, hdb, _, hreg, _⟩ :=
      coordinate_miss env req hfree (fileDB.Get_snd_false.mp hmiss)
    rw [hfail] at hresp
    have hget : (coordinate env w req).world.database.data.get (key req.id req.cmd)
        = some (env.ExecuteCommand req.cmd) := by
      rw [hdb]
      simp [fileDB.Set, GoMap.get_set_same]
    have hfree2 : keyFree (coordinate env w req).world (key req.id req.cmd) := by
      unfold keyFree
      rw [hreg]
      trivial
    rw [handleCommand_accepted hreq2]
    have h := coordinate_hit env2 req hget
    exact ⟨hresp, (h.2.2.2.2 hfree2).1, h.1, h.2.1, h.2.2.2.1⟩

theorem failed_write_still_cached_witness :
    ((fileDB.Set demoCodec ⟨"db.json", []⟩ readOnlyFS "1+deploy" "OK").1 = some Error.io ∧
      (fileDB.Set demoCodec ⟨"db.json", []⟩ readOnlyFS "1+deploy" "OK").2.1.Get "1+deploy"
        = ("OK", true)) ∧
    (handleCommand otherEnv (handleCommand demoEnv (freshWorld readOnlyFS) deployRequest).world
        deployRequest).response = some (okResponse ⟨"deploy", 1⟩ "OK") ∧
    (handleCommand otherEnv (handleCommand demoEnv (freshWorld readOnlyFS) deployRequest).world
        deployRequest).world.fs.file "db.json" = .absent :=
  ⟨failed_write_still_cached.1 demoCodec ⟨"db.json", []⟩ readOnlyFS "1+deploy" "OK" Error.io
      (by decide),
    (failed_write_still_cached.2 demoEnv (freshWorld readOnlyFS) deployRequest ⟨"deploy", 1⟩
      Error.io otherEnv deployRequest (by decide) (by decide) (by decide) (by decide)
      (by decide)).2.1,
    by decide⟩

/-! ## C9: validation -/

theorem utf8Len_replicate_blank (n : Nat) : String.utf8Len (List.replicate n ' ') = n := by
  induction n with
  | zero => rfl
  | succ n ih =>
    rw [List.replicate_succ, String.utf8Len_cons, ih]
    rfl

theorem padded_size (s : String) (n : Nat) :
    (padded s n).utf8ByteSize = s.utf8ByteSize + n := by
  unfold padded
  rw [String.utf8ByteSize, String.utf8ByteSize]
  show String.utf8ByteSize.go (s ++ String.mk (List.replicate n ' ')).data = _
  rw [String.data_append]
  have h : ∀ l : List Char, String.utf8ByteSize.go l = String.utf8Len l := by
    intro l
    induction l with
    | nil => rfl
    | cons c cs ih => simp [String.utf8ByteSize.go, ih, String.utf8Len_cons]
  rw [h, h, String.utf8Len_append, utf8Len_replicate_blank]

theorem demoUnmarshalRequest_padded (n : Nat) :
    demoUnmarshalRequest (padded "deploy#1" n) = some ⟨"deploy", 1⟩ := by
  have h : (padded "deploy#1" n).data.filter (fun c => c != ' ') = "deploy#1".data := by
    unfold padded
    rw [String.data_append, List.filter_append, List.filter_replicate]
    have hb : ((' ' : Char) != ' ') = false := by decide
    rw [hb, if_neg (by decide), List.append_nil]
    decide
  unfold demoUnmarshalRequest
  simp only [h]
  rfl

theorem oversized_rejected (env : Env) (w : World) (r : Request)
    (h1 : r.method = MethodPost) (h2 : maxBytes < r.body.utf8ByteSize) :
    (handleCommand env w r).response = some
      (writeJSON (.apiError ⟨"Error reading request body."⟩) StatusInternalServerError) ∧
    (handleCommand env w r).trace = [] := by
  unfold handleCommand
  rw [if_neg (by simp [h1]), if_pos h2]
  exact ⟨rfl, rfl⟩

/-- C9, as stated, fails on the read cap of api.go 49-55: a POST request whose body
decodes to a non-empty cmd and a non-zero id, but is longer than 1048576 bytes, is
answered 500 "Error reading request body." and never reaches the coordinator. -/
theorem oversized_post_not_coordinated :
    oversizedRequest.method = MethodPost ∧
    (∃ req, demoEnv.unmarshalRequest oversizedRequest.body = some req ∧
      req.cmd ≠ "" ∧ req.id ≠ 0) ∧
    (handleCommand demoEnv (freshWorld emptyFS) oversizedRequest).trace = [] ∧
    (handleCommand demoEnv (freshWorld emptyFS) oversizedRequest).response = some
      ⟨.apiError ⟨"Error reading request body."⟩, 500⟩ := by
  have hsize : maxBytes < oversizedRequest.body.utf8ByteSize := by
    show maxBytes < (padded "deploy#1" 1048576).utf8ByteSize
    rw [padded_size]
    have : ("deploy#1" : String).utf8ByteSize = 8 := by decide
    rw [this]
    norm_num [maxBytes]
  have h := oversized_rejected demoEnv (freshWorld emptyFS) oversizedRequest rfl hsize
  have hdec : demoEnv.unmarshalRequest oversizedRequest.body = some ⟨"deploy", 1⟩ := by
    unfold oversizedRequest demoEnv
    dsimp only
    exact demoUnmarshalRequest_padded 1048576
  exact ⟨rfl, ⟨⟨"deploy", 1⟩, hdec, by decide, by decide⟩, h.2, h.1⟩

/-- C9, amended: a request whose method is not POST, whose body is longer than
1048576 bytes, whose body does not decode, or whose decoded cmd is empty or id is 0,
is answered with an error payload and a non-200 status (400 or 500), makes no call
at all (no cmdMutexMap access, no `database.Get` or `Set`, no `ExecuteCommand`) and
leaves the world unchanged; conversely every POST request whose body is at most
1048576 bytes and decodes to a non-empty cmd and a non-zero id reaches the
coordinator: its first call is `getNamedMutex` on its key. -/
theorem validation_gate (env : Env) (w : World) (r : Request) :
    ((r.method ≠ MethodPost ∨ maxBytes < r.body.utf8ByteSize ∨
        env.unmarshalRequest r.body = none ∨
        ∃ req, env.unmarshalRequest r.body = some req ∧ (req.cmd = "" ∨ req.id = 0)) →
      (∃ e status, (handleCommand env w r).response = some (writeJSON (.apiError e) status) ∧
        (status = StatusBadRequest ∨ status = StatusInternalServerError)) ∧
      (handleCommand env w r).trace = [] ∧ (handleCommand env w r).world = w) ∧
    (∀ req, r.method = MethodPost → r.body.utf8ByteSize ≤ maxBytes →
      env.unmarshalRequest r.body = some req → req.cmd ≠ "" → req.id ≠ 0 →
      handleCommand env w r = coordinate env w req ∧
      (handleCommand env w r).trace.head? = some (.loadOrStore (key req.id req.cmd))) := by
  constructor
  · intro h
    unfold handleCommand
    by_cases h1 : r.method = MethodPost
    · rw [if_neg (by simp [h1])]
      by_cases h2 : maxBytes < r.body.utf8ByteSize
      · rw [if_pos h2]
        exact ⟨⟨_, _, rfl, Or.inr rfl⟩, rfl, rfl⟩
      · rw [if_neg h2]
        cases h3 : env.unmarshalRequest r.body with
        | none => exact ⟨⟨_, _, rfl, Or.inl rfl⟩, rfl, rfl⟩
        | some req =>
          have h4 : req.cmd = "" ∨ req.id = 0 := by
            rcases h with h | h | h | ⟨q, hq, h⟩
            · exact absurd h1 h
            · exact absurd h h2
            · rw [h3] at h; exact absurd h (by simp)
            · rw [h3] at hq; cases hq; exact h
          simp only
          rw [if_pos h4]
          exact ⟨⟨_, _, rfl, Or.inl rfl⟩, rfl, rfl⟩
    · rw [if_pos h1]
      exact ⟨⟨_, _, rfl, Or.inr rfl⟩, rfl, rfl⟩
  · intro req h1 h2 h3 h4 h5
    have hacc : Accepted env r req := ⟨h1, h2, h3, h4, h5⟩
    refine ⟨handleCommand_accepted hacc w, ?_⟩
    rw [handleCommand_accepted hacc]
    rcases hgm : getNamedMutex w (key req.id req.cmd) with ⟨m, w1⟩
    rcases coordinate_cases env w req _ m w1 rfl hgm with ⟨_, hc⟩ | ⟨_, _, _, hc⟩ | ⟨_, _, hc⟩ <;>
      rw [hc] <;> rfl

theorem validation_gate_witness :
    ((handleCommand demoEnv (freshWorld emptyFS) ⟨"GET", "deploy#1"⟩).trace = [] ∧
      (handleCommand demoEnv (freshWorld emptyFS) ⟨"POST", "#0"⟩).trace = [] ∧
      (handleCommand demoEnv (freshWorld emptyFS) ⟨"POST", "deploy"⟩).response
        = some ⟨.apiError ⟨"Invalid writeJSON format."⟩, 400⟩) ∧
    (handleCommand demoEnv (freshWorld emptyFS) deployRequest).trace.head?
      = some (.loadOrStore "1+deploy") :=
  ⟨⟨((validation_gate demoEnv (freshWorld emptyFS) ⟨"GET", "deploy#1"⟩).1
        (Or.inl (by decide))).2.1,
      ((validation_gate demoEnv (freshWorld emptyFS) ⟨"POST", "#0"⟩).1
        (Or.inr (Or.inr (Or.inr ⟨⟨"", 0⟩, by decide, Or.inl rfl⟩)))).2.1,
      by decide⟩,
    ((validation_gate demoEnv (freshWorld emptyFS) deployRequest).2 ⟨"deploy", 1⟩
      (by decide) (by decide) (by decide) (by decide) (by decide)).2⟩

/-! ## C5, C6: the store and its file -/

theorem NewFileDB_absent (c : JSONCodec) (fs : FS) (filename : String)
    (h : fs.file filename = .absent) :
    NewFileDB c fs filename = .ok { filename := filename, data := [] } := by
  simp [NewFileDB, fileDB.loadFile, osReadFile, h, osIsNotExist]

theorem NewFileDB_unreadable (c : JSONCodec) (fs : FS) (filename : String)
    (h : fs.file filename = .unreadable) : NewFileDB c fs filename = .error .io := by
  simp [NewFileDB, fileDB.loadFile, osReadFile, h, osIsNotExist]

theorem NewFileDB_content (c : JSONCodec) (fs : FS) (filename bytes : String)
    (h : fs.file filename = .content bytes) :
    NewFileDB c fs filename =
      match (c.unmarshal bytes []).1 with
      | some e => .error (.json e)
      | none => .ok { filename := filename, data := (c.unmarshal bytes []).2 } := by
  simp only [NewFileDB, fileDB.loadFile, osReadFile, h]
  cases (c.unmarshal bytes []).1 <;> simp [osIsNotExist]

/-- C6, as stated, fails: the document `null` is not a JSON object of strings, yet
`json.Unmarshal` returns no error on it, so `NewFileDB` on a file holding `null`
returns a store and no error, and the store starts empty: `Get(k) = ("", false)` for
every key. -/
theorem null_document_starts_empty :
    (oneFileFS "null").file "db.json" = .content "null" ∧
    ∃ db, NewFileDB goLikeCodec (oneFileFS "null") "db.json" = .ok db ∧
      ∀ k, db.Get k = ("", false) :=
  ⟨by decide, ⟨"db.json", []⟩, rfl, fun _ => rfl⟩

/-- C6, amended: `NewFileDB` on a path with no file returns a store, no error, in
which `Get(k) = ("", false)` for every key; on a path whose file exists and whose
content `json.Unmarshal` returns an error for, it returns that error and no store,
and so it does when the file exists and cannot be read; on a file whose content
`json.Unmarshal` accepts it returns the store holding exactly the entries
`json.Unmarshal` decoded. So it fails exactly when a file exists and cannot be read
or `json.Unmarshal` returns an error for it. -/
theorem store_initialization (c : JSONCodec) (fs : FS) (filename : String) :
    (fs.file filename = .absent →
      ∃ db, NewFileDB c fs filename = .ok db ∧ ∀ k, db.Get k = ("", false)) ∧
    (∀ bytes e, fs.file filename = .content bytes → (c.unmarshal bytes []).1 = some e →
      NewFileDB c fs filename = .error (.json e)) ∧
    (fs.file filename = .unreadable → NewFileDB c fs filename = .error .io) ∧
    (∀ bytes, fs.file filename = .content bytes → (c.unmarshal bytes []).1 = none →
      NewFileDB c fs filename = .ok { filename := filename, data := (c.unmarshal bytes []).2 }) ∧
    ((∃ e, NewFileDB c fs filename = .error e) ↔
      (fs.file filename = .unreadable ∨
        ∃ bytes e, fs.file filename = .content bytes ∧ (c.unmarshal bytes []).1 = some e)) := by
  refine ⟨?_, ?_, ?_, ?_, ?_⟩
  · intro h
    exact ⟨_, NewFileDB_absent c fs filename h, fun k => rfl⟩
  · intro bytes e h he
    rw [NewFileDB_content c fs filename bytes h, he]
  · exact NewFileDB_unreadable c fs filename
  · intro bytes h he
    rw [NewFileDB_content c fs filename bytes h, he]
  · constructor
    · rintro ⟨e, he⟩
      cases hf : fs.file filename with
      | absent =>
        rw [NewFileDB_absent c fs filename hf] at he
        exact absurd he (by simp)
      | unreadable => exact Or.inl rfl
      | content bytes =>
        right
        rw [NewFileDB_content c fs filename bytes hf] at he
        cases hu : (c.unmarshal bytes []).1 with
        | none =>
          rw [hu] at he
          exact absurd he (by simp)
        | some e1 => exact ⟨bytes, e1, rfl, hu⟩
    · rintro (h | ⟨bytes, e, h, he⟩)
      · exact ⟨_, NewFileDB_unreadable c fs filename h⟩
      · refine ⟨.json e, ?_⟩
        rw [NewFileDB_content c fs filename bytes h, he]

theorem store_initialization_witness :
    (∃ db, NewFileDB demoCodec emptyFS "db.json" = .ok db ∧ ∀ k, db.Get k = ("", false)) ∧
    NewFileDB demoCodec (oneFileFS "not a store") "db.json"
      = .error (.json "invalid character") ∧
    NewFileDB demoCodec (oneFileFS "1+deploy=OK\n5+build=done\n") "db.json"
      = .ok ⟨"db.json", [("5+build", "done"), ("1+deploy", "OK")]⟩ :=
  ⟨(store_initialization demoCodec emptyFS "db.json").1 (by decide),
    (store_initialization demoCodec (oneFileFS "not a store") "db.json").2.1
      "not a store" "invalid character" (by decide) (by decide),
    rfl⟩

theorem osWriteFile_ok (fs : FS) (name data : String)
    (h : (osWriteFile fs name data).1 = none) :
    (osWriteFile fs name data).2.file name = .content data := by
  unfold osWriteFile at h ⊢
  by_cases hro : fs.readOnly name = true
  · rw [if_pos hro] at h
    exact absurd h (by simp)
  · rw [if_neg hro]
    simp

/-- C5, as stated, fails: `Set(k, v)` returns without error for a value with a byte
that is not valid UTF-8, the file holds U+FFFD in its place, and the store a fresh
`NewFileDB` loads from that file has `Get(k) = ("OK\ufffd", true)`, not `(v, true)`. -/
theorem coerced_value_not_read_back :
    (fileDB.Set goLikeCodec ⟨"db.json", []⟩ emptyFS "1+deploy" strayValue).1 = none ∧
    (fileDB.Set goLikeCodec ⟨"db.json", []⟩ emptyFS "1+deploy" strayValue).2.1.Get "1+deploy"
      = (strayValue, true) ∧
    ∃ db, NewFileDB goLikeCodec
        (fileDB.Set goLikeCodec ⟨"db.json", []⟩ emptyFS "1+deploy" strayValue).2.2 "db.json"
        = .ok db ∧
      db.Get "1+deploy" = (coercedValue, true) ∧ db.Get "1+deploy" ≠ (strayValue, true) :=
  ⟨by decide, by decide, ⟨"db.json", [("1+deploy", coercedValue)]⟩, rfl, by decide, by decide⟩

/-- C5, amended: if `Set(k, v)` returns without error, and `json.Unmarshal` reads
back what `json.MarshalIndent` wrote for the map (as it does when every key and
value is valid UTF-8), then a fresh `NewFileDB` on the same path, on the file system
`Set` left, returns a store whose `Get` agrees with the in-memory store on every key;
in particular `Get(k) = (v, true)`. -/
theorem persistence_round_trip (c : JSONCodec) (s : fileDB) (fs : FS) (k v : String)
    (hset : (s.Set c fs k v).1 = none)
    (hcodec : ∀ bytes, c.marshalIndent (s.data.set k v) = .ok bytes →
      (c.unmarshal bytes []).1 = none ∧
      ∀ k1, GoMap.get (c.unmarshal bytes []).2 k1 = (s.data.set k v).get k1) :
    ∃ db, NewFileDB c (s.Set c fs k v).2.2 s.filename = .ok db ∧
      (∀ k1, db.Get k1 = (s.Set c fs k v).2.1.Get k1) ∧ db.Get k = (v, true) := by
  simp only [fileDB.Set, fileDB.writeFile] at hset ⊢
  cases hm : c.marshalIndent (s.data.set k v) with
  | error e =>
    rw [hm] at hset
    exact absurd hset (by simp)
  | ok bytes =>
    rw [hm] at hset
    simp only at hset ⊢
    obtain ⟨hok, hagree⟩ := hcodec bytes hm
    have hfile := osWriteFile_ok fs s.filename bytes hset
    refine ⟨{ filename := s.filename, data := (c.unmarshal bytes []).2 }, ?_, ?_, ?_⟩
    · rw [NewFileDB_content c _ s.filename bytes hfile, hok]
    · intro k1
      simp only [fileDB.Get, hagree k1]
    · simp only [fileDB.Get, hagree k, GoMap.get_set_same]

theorem persistence_round_trip_witness :
    (fileDB.Set demoCodec ⟨"db.json", [("5+build", "done")]⟩ emptyFS "1+deploy" "OK").2.2.file
      "db.json" = .content "1+deploy=OK\n5+build=done\n" ∧
    ∃ db, NewFileDB demoCodec
        (fileDB.Set demoCodec ⟨"db.json", [("5+build", "done")]⟩ emptyFS "1+deploy" "OK").2.2
        "db.json" = .ok db ∧
      (∀ k1, db.Get k1 =
        (fileDB.Set demoCodec ⟨"db.json", [("5+build", "done")]⟩ emptyFS "1+deploy" "OK").2.1.Get
          k1) ∧
      db.Get "1+deploy" = ("OK", true) :=
  ⟨by decide,
    persistence_round_trip demoCodec ⟨"db.json", [("5+build", "done")]⟩ emptyFS "1+deploy" "OK"
      (by decide)
      (by
        intro bytes h
        have hb : bytes = "1+deploy=OK\n5+build=done\n" := by
          have h1 : demoCodec.marshalIndent (GoMap.set [("5+build", "done")] "1+deploy" "OK")
              = .ok "1+deploy=OK\n5+build=done\n" := rfl
          rw [h1] at h
          exact (Except.ok.inj h).symm
        subst hb
        refine ⟨by decide, fun k1 => ?_⟩
        have h2 : (demoCodec.unmarshal "1+deploy=OK\n5+build=done\n" []).2
            = [("5+build", "done"), ("1+deploy", "OK")] := by decide
        rw [h2]
        have h3 : GoMap.set [("5+build", "done")] "1+deploy" "OK"
            = [("1+deploy", "OK"), ("5+build", "done")] := by decide
        rw [h3]
        unfold GoMap.get
        by_cases ha : k1 = "5+build"
        · subst ha; decide
        · by_cases hb : k1 = "1+deploy"
          · subst hb; decide
          · rw [lookup_cons_other _ _ ha, lookup_cons_other _ _ hb,
              lookup_cons_other _ _ hb, lookup_cons_other _ _ ha])⟩

/-! ## Concurrent calls: the steps -/

/-- Every step of the scheduler is one of the ten moves, made by an existing thread. -/
theorem step_move {c : JSONCodec} {s s1 : System} {i : Nat} {out : String}
    (h : step c s i out = some s1) :
    i < s.calls ∧ ∃ p w ev, Move c (s.req i) out s.world (s.pc i) p w ev ∧
      s1 = s.advance i p w ev := by
  unfold step at h
  by_cases hi : i < s.calls
  · rw [if_pos hi] at h
    refine ⟨hi, ?_⟩
    cases hp : s.pc i with
    | start =>
      rw [hp] at h
      simp only [Option.some.injEq] at h
      exact ⟨_, _, _, .loadOrStore rfl, h.symm⟩
    | acquire m =>
      rw [hp] at h
      simp only at h
      by_cases hl : s.world.mutexLocked m = true
      · rw [if_pos hl] at h
        exact absurd h (by simp)
      · rw [if_neg hl] at h
        exact ⟨_, _, _, .lock m rfl (by simpa using hl), (Option.some.inj h).symm⟩
    | critical m =>
      rw [hp] at h
      simp only [fileDB.Get] at h
      cases hg : s.world.database.data.get (key (s.req i).id (s.req i).cmd) with
      | none =>
        rw [hg] at h
        simp only [Bool.not_false, if_true, Option.some.injEq] at h
        exact ⟨_, _, _, .getMiss m rfl hg, h.symm⟩
      | some cached =>
        rw [hg] at h
        simp only [Bool.not_true, Bool.false_eq_true, if_false, Option.some.injEq] at h
        exact ⟨_, _, _, .getHit m cached rfl hg, h.symm⟩
    | call m =>
      rw [hp] at h
      exact ⟨_, _, _, .enter m rfl, (Option.some.inj h).symm⟩
    | executing m =>
      rw [hp] at h
      exact ⟨_, _, _, .leave m rfl, (Option.some.inj h).symm⟩
    | save m result =>
      rw [hp] at h
      simp only at h
      cases he : (databaseSet c s.world (key (s.req i).id (s.req i).cmd) result).1 with
      | none =>
        rw [he] at h
        exact ⟨_, _, _, .setOk m result rfl he, (Option.some.inj h).symm⟩
      | some e =>
        rw [he] at h
        exact ⟨_, _, _, .setFail m result e rfl he, (Option.some.inj h).symm⟩
    | deferDelete m resp =>
      rw [hp] at h
      exact ⟨_, _, _, .delete m resp rfl, (Option.some.inj h).symm⟩
    | deferUnlock m resp =>
      rw [hp] at h
      exact ⟨_, _, _, .unlock m resp rfl, (Option.some.inj h).symm⟩
    | done resp =>
      rw [hp] at h
      exact absurd h (by simp)
  · rw [if_neg hi] at h
    exact absurd h (by simp)

theorem advance_pc (s : System) (i : Nat) (p : PC) (w : World) (ev : List Event) (j : Nat) :
    (s.advance i p w ev).pc j = if j = i then p else s.pc j := rfl

theorem advance_pc_self (s : System) (i : Nat) (p : PC) (w : World) (ev : List Event) :
    (s.advance i p w ev).pc i = p := by
  simp [advance_pc]

theorem advance_pc_other (s : System) {i j : Nat} (p : PC) (w : World) (ev : List Event)
    (h : j ≠ i) : (s.advance i p w ev).pc j = s.pc j := by
  simp [advance_pc, h]

/-- The two outcomes of `getNamedMutex`: the stored mutex, or a new one stored. -/
theorem getNamedMutex_spec (w : World) (k : String) :
    (getNamedMutex w k).2.nextMutex = w.nextMutex + 1 ∧
    (∀ x, (getNamedMutex w k).2.mutexLocked x
      = if x = w.nextMutex then false else w.mutexLocked x) ∧
    ((∃ m, w.cmdMutexMap k = some m ∧ (getNamedMutex w k).1 = m ∧
        (getNamedMutex w k).2.cmdMutexMap = w.cmdMutexMap) ∨
      (w.cmdMutexMap k = none ∧ (getNamedMutex w k).1 = w.nextMutex ∧
        ∀ x, (getNamedMutex w k).2.cmdMutexMap x
          = if x = k then some w.nextMutex else w.cmdMutexMap x)) := by
  unfold getNamedMutex
  cases h : w.cmdMutexMap k with
  | none => exact ⟨rfl, fun _ => rfl, Or.inr ⟨rfl, rfl, fun _ => rfl⟩⟩
  | some m => exact ⟨rfl, fun _ => rfl, Or.inl ⟨m, rfl, rfl, rfl⟩⟩

/-- A move that changes neither registry nor mutexes, nor what the thread holds,
waits for or has registered, keeps the lock discipline. -/
theorem lockInv_same {s : System} (hinv : LockInv s) (i : Nat) (p : PC) (w : World)
    (ev : List Event) (hreg : w.cmdMutexMap = s.world.cmdMutexMap)
    (hlock : w.mutexLocked = s.world.mutexLocked) (hnext : w.nextMutex = s.world.nextMutex)
    (hh : p.held = (s.pc i).held) (hw : p.waiting = (s.pc i).waiting)
    (hr : p.registered = (s.pc i).registered) : LockInv (s.advance i p w ev) := by
  have hheld : ∀ j, ((s.advance i p w ev).pc j).held = (s.pc j).held := by
    intro j
    rw [advance_pc]
    split
    · rename_i h; rw [h, hh]
    · rfl
  have hwait : ∀ j, ((s.advance i p w ev).pc j).waiting = (s.pc j).waiting := by
    intro j
    rw [advance_pc]
    split
    · rename_i h; rw [h, hw]
    · rfl
  have hregd : ∀ j, ((s.advance i p w ev).pc j).registered = (s.pc j).registered := by
    intro j
    rw [advance_pc]
    split
    · rename_i h; rw [h, hr]
    · rfl
  constructor
  · intro j m hj h
    rw [hheld] at h
    show w.mutexLocked m = true
    rw [hlock]
    exact hinv.held_locked j m hj h
  · intro j1 j2 m h1 h2 hm1 hm2
    rw [hheld] at hm1 hm2
    exact hinv.held_unique j1 j2 m h1 h2 hm1 hm2
  · intro j m hj h
    rw [hheld] at h
    show m < w.nextMutex
    rw [hnext]
    exact hinv.held_lt j m hj h
  · intro j m hj h
    rw [hwait] at h
    show m < w.nextMutex
    rw [hnext]
    exact hinv.waiting_lt j m hj h
  · intro k m h
    show m < w.nextMutex
    rw [hnext]
    exact hinv.reg_lt k m (by rw [← hreg]; exact h)
  · intro k m h hl
    obtain ⟨j, hj, hjm⟩ := hinv.reg_owner k m (by rw [← hreg]; exact h) (by rw [← hlock]; exact hl)
    exact ⟨j, hj, by rw [hheld]; exact hjm⟩
  · intro j m hj h hl
    rw [hwait] at h
    obtain ⟨j1, hj1, hjm⟩ := hinv.waiting_owner j m hj h (by rw [← hlock]; exact hl)
    exact ⟨j1, hj1, by rw [hheld]; exact hjm⟩
  · intro k m h
    obtain ⟨j, hj, hk, hjm⟩ := hinv.reg_user k m (by rw [← hreg]; exact h)
    exact ⟨j, hj, hk, by rw [hregd]; exact hjm⟩

theorem lockInv_loadOrStore {s : System} (hinv : LockInv s) {i : Nat} (hi : i < s.calls)
    (hp : s.pc i = .start) (k : String) (hk : k = key (s.req i).id (s.req i).cmd)
    (ev : List Event) :
    LockInv (s.advance i (.acquire (getNamedMutex s.world k).1) (getNamedMutex s.world k).2 ev) := by
  obtain ⟨hnext, hlock, hcase⟩ := getNamedMutex_spec s.world k
  have hother : ∀ j m, ((s.advance i (.acquire (getNamedMutex s.world k).1)
      (getNamedMutex s.world k).2 ev).pc j).held = some m → j ≠ i ∧ (s.pc j).held = some m := by
    intro j m h
    rw [advance_pc] at h
    by_cases hj : j = i
    · rw [if_pos hj] at h
      exact absurd h (by simp [PC.held])
    · rw [if_neg hj] at h
      exact ⟨hj, h⟩
  have hkeep : ∀ j m, j < s.calls → (s.pc j).held = some m →
      ((s.advance i (.acquire (getNamedMutex s.world k).1)
        (getNamedMutex s.world k).2 ev).pc j).held = some m := by
    intro j m _ h
    have hj : j ≠ i := by
      intro hji
      rw [hji, hp] at h
      exact absurd h (by simp [PC.held])
    rw [advance_pc_other _ _ _ _ hj]
    exact h
  have hregold : ∀ x m, (getNamedMutex s.world k).2.cmdMutexMap x = some m →
      m ≠ s.world.nextMutex → s.world.cmdMutexMap x = some m := by
    intro x m h hne
    rcases hcase with ⟨m0, _, _, hreg⟩ | ⟨_, _, hreg⟩
    · rw [hreg] at h; exact h
    · rw [hreg] at h
      by_cases hx : x = k
      · rw [if_pos hx] at h
        exact absurd (Option.some.inj h).symm hne
      · rw [if_neg hx] at h; exact h
  have hlocked : ∀ m, (getNamedMutex s.world k).2.mutexLocked m = true →
      m ≠ s.world.nextMutex ∧ s.world.mutexLocked m = true := by
    intro m h
    rw [hlock] at h
    by_cases hm : m = s.world.nextMutex
    · rw [if_pos hm] at h; exact absurd h (by simp)
    · rw [if_neg hm] at h; exact ⟨hm, h⟩
  have hmlt : (getNamedMutex s.world k).1 < s.world.nextMutex + 1 := by
    rcases hcase with ⟨m0, hm0, hfst, _⟩ | ⟨_, hfst, _⟩
    · rw [hfst]
      exact Nat.lt_succ_of_lt (hinv.reg_lt k m0 hm0)
    · rw [hfst]; exact Nat.lt_succ_self _
  constructor
  · intro j m hj h
    obtain ⟨_, hold⟩ := hother j m h
    show (getNamedMutex s.world k).2.mutexLocked m = true
    rw [hlock, if_neg (Nat.ne_of_lt (hinv.held_lt j m hj hold))]
    exact hinv.held_locked j m hj hold
  · intro j1 j2 m h1 h2 hm1 hm2
    exact hinv.held_unique j1 j2 m h1 h2 (hother j1 m hm1).2 (hother j2 m hm2).2
  · intro j m hj h
    show m < (getNamedMutex s.world k).2.nextMutex
    rw [hnext]
    exact Nat.lt_succ_of_lt (hinv.held_lt j m hj (hother j m h).2)
  · intro j m hj h
    show m < (getNamedMutex s.world k).2.nextMutex
    rw [hnext]
    rw [advance_pc] at h
    by_cases hji : j = i
    · rw [if_pos hji] at h
      have : (getNamedMutex s.world k).1 = m := by simpa [PC.waiting] using h
      rw [← this]; exact hmlt
    · rw [if_neg hji] at h
      exact Nat.lt_succ_of_lt (hinv.waiting_lt j m hj h)
  · intro x m h
    show m < (getNamedMutex s.world k).2.nextMutex
    rw [hnext]
    by_cases hm : m = s.world.nextMutex
    · rw [hm]; exact Nat.lt_succ_self _
    · exact Nat.lt_succ_of_lt (hinv.reg_lt x m (hregold x m h hm))
  · intro x m h hl
    obtain ⟨hne, hl0⟩ := hlocked m hl
    obtain ⟨j, hj, hjm⟩ := hinv.reg_owner x m (hregold x m h hne) hl0
    exact ⟨j, hj, hkeep j m hj hjm⟩
  · intro j m hj h hl
    obtain ⟨hne, hl0⟩ := hlocked m hl
    rw [advance_pc] at h
    by_cases hji : j = i
    · rw [if_pos hji] at h
      have hm : (getNamedMutex s.world k).1 = m := by simpa [PC.waiting] using h
      rcases hcase with ⟨m0, hm0, hfst, _⟩ | ⟨_, hfst, _⟩
      · rw [hfst] at hm
        rw [hm] at hm0
        obtain ⟨j1, hj1, hjm⟩ := hinv.reg_owner k m hm0 hl0
        exact ⟨j1, hj1, hkeep j1 m hj1 hjm⟩
      · rw [hfst] at hm
        exact absurd hm.symm hne
    · rw [if_neg hji] at h
      obtain ⟨j1, hj1, hjm⟩ := hinv.waiting_owner j m hj h hl0
      exact ⟨j1, hj1, hkeep j1 m hj1 hjm⟩
  · intro x m h
    have huser : ∀ j, j < s.calls → key (s.req j).id (s.req j).cmd = x →
        (s.pc j).registered = some m →
        ∃ j1, j1 < s.calls ∧ key (s.req j1).id (s.req j1).cmd = x ∧
          ((s.advance i (.acquire (getNamedMutex s.world k).1)
            (getNamedMutex s.world k).2 ev).pc j1).registered = some m := by
      intro j hj hx hjm
      have hji : j ≠ i := by
        intro hji
        rw [hji, hp] at hjm
        exact absurd hjm (by simp [PC.registered])
      exact ⟨j, hj, hx, by rw [advance_pc_other _ _ _ _ hji]; exact hjm⟩
    rcases hcase with ⟨m0, hm0, hfst, hreg⟩ | ⟨hnone, hfst, hreg⟩
    · have h0 : s.world.cmdMutexMap x = some m := by rw [← hreg]; exact h
      obtain ⟨j, hj, hx, hjm⟩ := hinv.reg_user x m h0
      exact huser j hj hx hjm
    · have h1 : (if x = k then some s.world.nextMutex else s.world.cmdMutexMap x) = some m := by
        rw [← hreg]; exact h
      by_cases hx : x = k
      · rw [if_pos hx] at h1
        refine ⟨i, hi, by rw [hx, hk]; rfl, ?_⟩
        rw [advance_pc_self, hfst]
        simpa [PC.registered] using h1
      · rw [if_neg hx] at h1
        obtain ⟨j, hj, hxk, hjm⟩ := hinv.reg_user x m h1
        exact huser j hj hxk hjm

theorem lockInv_lock {s : System} (hinv : LockInv s) {i : Nat} (hi : i < s.calls) {m : Nat}
    (hp : s.pc i = .acquire m) (hfree : s.world.mutexLocked m = false) (ev : List Event) :
    LockInv (s.advance i (.critical m) (mutexLock s.world m) ev) := by
  have hheld : ∀ j x, ((s.advance i (.critical m) (mutexLock s.world m) ev).pc j).held = some x →
      (j = i ∧ x = m) ∨ (j ≠ i ∧ (s.pc j).held = some x) := by
    intro j x h
    rw [advance_pc] at h
    by_cases hj : j = i
    · rw [if_pos hj] at h
      exact Or.inl ⟨hj, by simpa [PC.held] using h.symm⟩
    · rw [if_neg hj] at h
      exact Or.inr ⟨hj, h⟩
  have hkeep : ∀ j x, j < s.calls → (s.pc j).held = some x →
      ((s.advance i (.critical m) (mutexLock s.world m) ev).pc j).held = some x := by
    intro j x _ h
    have hj : j ≠ i := by
      intro hji
      rw [hji, hp] at h
      exact absurd h (by simp [PC.held])
    rw [advance_pc_other _ _ _ _ hj]
    exact h
  have hself : ((s.advance i (.critical m) (mutexLock s.world m) ev).pc i).held = some m := by
    rw [advance_pc_self]; rfl
  have hnot : ∀ j, j < s.calls → (s.pc j).held ≠ some m := by
    intro j hj h
    rw [hinv.held_locked j m hj h] at hfree
    exact absurd hfree (by simp)
  have hlocked : ∀ x, (mutexLock s.world m).mutexLocked x = true →
      x = m ∨ s.world.mutexLocked x = true := by
    intro x h
    by_cases hx : x = m
    · exact Or.inl hx
    · right
      simpa [mutexLock, hx] using h
  have hwait : ∀ j x, ((s.advance i (.critical m) (mutexLock s.world m) ev).pc j).waiting
      = some x → j ≠ i ∧ (s.pc j).waiting = some x := by
    intro j x h
    rw [advance_pc] at h
    by_cases hj : j = i
    · rw [if_pos hj] at h
      exact absurd h (by simp [PC.waiting])
    · rw [if_neg hj] at h
      exact ⟨hj, h⟩
  constructor
  · intro j x hj h
    show (mutexLock s.world m).mutexLocked x = true
    rcases hheld j x h with ⟨_, hx⟩ | ⟨_, hold⟩
    · simp [mutexLock, hx]
    · have := hinv.held_locked j x hj hold
      simp [mutexLock, this]
  · intro j1 j2 x h1 h2 hm1 hm2
    rcases hheld j1 x hm1 with ⟨e1, hx1⟩ | ⟨_, hold1⟩
    · rcases hheld j2 x hm2 with ⟨e2, _⟩ | ⟨_, hold2⟩
      · rw [e1, e2]
      · rw [hx1] at hold2
        exact absurd hold2 (hnot j2 h2)
    · rcases hheld j2 x hm2 with ⟨_, hx2⟩ | ⟨_, hold2⟩
      · rw [hx2] at hold1
        exact absurd hold1 (hnot j1 h1)
      · exact hinv.held_unique j1 j2 x h1 h2 hold1 hold2
  · intro j x hj h
    show x < s.world.nextMutex
    rcases hheld j x h with ⟨_, hx⟩ | ⟨_, hold⟩
    · rw [hx]
      exact hinv.waiting_lt i m hi (by rw [hp]; rfl)
    · exact hinv.held_lt j x hj hold
  · intro j x hj h
    exact hinv.waiting_lt j x hj (hwait j x h).2
  · intro k x h
    exact hinv.reg_lt k x h
  · intro k x h hl
    rcases hlocked x hl with hx | hl0
    · exact ⟨i, hi, by rw [hx]; exact hself⟩
    · obtain ⟨j, hj, hjm⟩ := hinv.reg_owner k x h hl0
      exact ⟨j, hj, hkeep j x hj hjm⟩
  · intro j x hj h hl
    rcases hlocked x hl with hx | hl0
    · exact ⟨i, hi, by rw [hx]; exact hself⟩
    · obtain ⟨j1, hj1, hjm⟩ := hinv.waiting_owner j x hj (hwait j x h).2 hl0
      exact ⟨j1, hj1, hkeep j1 x hj1 hjm⟩
  · intro k x h
    obtain ⟨j, hj, hk, hjm⟩ := hinv.reg_user k x h
    refine ⟨j, hj, hk, ?_⟩
    rw [advance_pc]
    by_cases hji : j = i
    · rw [if_pos hji]
      rw [hji, hp] at hjm
      exact hjm
    · rw [if_neg hji]; exact hjm

theorem lockInv_delete {s : System} (hinv : LockInv s) {i : Nat} {m : Nat} {resp : Response}
    (hp : s.pc i = .deferDelete m resp) (k : String)
    (hk : k = key (s.req i).id (s.req i).cmd) (ev : List Event) :
    LockInv (s.advance i (.deferUnlock m resp) (mapDelete s.world k) ev) := by
  have hheld : ∀ j, ((s.advance i (.deferUnlock m resp) (mapDelete s.world k) ev).pc j).held
      = (s.pc j).held := by
    intro j
    rw [advance_pc]
    by_cases hj : j = i
    · rw [if_pos hj, hj, hp]; rfl
    · rw [if_neg hj]
  have hwait : ∀ j, ((s.advance i (.deferUnlock m resp) (mapDelete s.world k) ev).pc j).waiting
      = (s.pc j).waiting := by
    intro j
    rw [advance_pc]
    by_cases hj : j = i
    · rw [if_pos hj, hj, hp]; rfl
    · rw [if_neg hj]
  have hreg : ∀ x y, (mapDelete s.world k).cmdMutexMap x = some y →
      x ≠ k ∧ s.world.cmdMutexMap x = some y := by
    intro x y h
    by_cases hx : x = k
    · simp [mapDelete, hx] at h
    · exact ⟨hx, by simpa [mapDelete, hx] using h⟩
  constructor
  · intro j x hj h
    rw [hheld] at h
    exact hinv.held_locked j x hj h
  · intro j1 j2 x h1 h2 hm1 hm2
    rw [hheld] at hm1 hm2
    exact hinv.held_unique j1 j2 x h1 h2 hm1 hm2
  · intro j x hj h
    rw [hheld] at h
    exact hinv.held_lt j x hj h
  · intro j x hj h
    rw [hwait] at h
    exact hinv.waiting_lt j x hj h
  · intro x y h
    exact hinv.reg_lt x y (hreg x y h).2
  · intro x y h hl
    obtain ⟨j, hj, hjm⟩ := hinv.reg_owner x y (hreg x y h).2 hl
    exact ⟨j, hj, by rw [hheld]; exact hjm⟩
  · intro j x hj h hl
    rw [hwait] at h
    obtain ⟨j1, hj1, hjm⟩ := hinv.waiting_owner j x hj h hl
    exact ⟨j1, hj1, by rw [hheld]; exact hjm⟩
  · intro x y h
    obtain ⟨hx, h0⟩ := hreg x y h
    obtain ⟨j, hj, hjk, hjm⟩ := hinv.reg_user x y h0
    have hji : j ≠ i := by
      intro hji
      rw [hji, ← hk] at hjk
      exact hx hjk.symm
    exact ⟨j, hj, hjk, by rw [advance_pc_other _ _ _ _ hji]; exact hjm⟩

theorem lockInv_unlock {s : System} (hinv : LockInv s) {i : Nat} (hi : i < s.calls) {m : Nat}
    {resp : Response} (hp : s.pc i = .deferUnlock m resp) (ev : List Event) :
    LockInv (s.advance i (.done resp) (mutexUnlock s.world m) ev) := by
  have hheld : ∀ j x, ((s.advance i (.done resp) (mutexUnlock s.world m) ev).pc j).held = some x →
      j ≠ i ∧ (s.pc j).held = some x := by
    intro j x h
    rw [advance_pc] at h
    by_cases hj : j = i
    · rw [if_pos hj] at h
      exact absurd h (by simp [PC.held])
    · rw [if_neg hj] at h
      exact ⟨hj, h⟩
  have hmine : (s.pc i).held = some m := by rw [hp]; rfl
  have hne : ∀ j x, j < s.calls → j ≠ i → (s.pc j).held = some x → x ≠ m := by
    intro j x hj hji h hx
    rw [hx] at h
    exact hji (hinv.held_unique j i m hj hi h hmine)
  have hwait : ∀ j x, ((s.advance i (.done resp) (mutexUnlock s.world m) ev).pc j).waiting
      = some x → (s.pc j).waiting = some x := by
    intro j x h
    rw [advance_pc] at h
    by_cases hj : j = i
    · rw [if_pos hj] at h
      exact absurd h (by simp [PC.waiting])
    · rw [if_neg hj] at h
      exact h
  have hlocked : ∀ x, (mutexUnlock s.world m).mutexLocked x = true →
      x ≠ m ∧ s.world.mutexLocked x = true := by
    intro x h
    by_cases hx : x = m
    · simp [mutexUnlock, hx] at h
    · exact ⟨hx, by simpa [mutexUnlock, hx] using h⟩
  have hkeep : ∀ j x, j < s.calls → x ≠ m → (s.pc j).held = some x →
      ((s.advance i (.done resp) (mutexUnlock s.world m) ev).pc j).held = some x := by
    intro j x _ hx h
    have hj : j ≠ i := by
      intro hji
      rw [hji, hmine] at h
      exact hx (Option.some.inj h).symm
    rw [advance_pc_other _ _ _ _ hj]
    exact h
  constructor
  · intro j x hj h
    obtain ⟨hji, hold⟩ := hheld j x h
    show (mutexUnlock s.world m).mutexLocked x = true
    have := hinv.held_locked j x hj hold
    simp [mutexUnlock, hne j x hj hji hold, this]
  · intro j1 j2 x h1 h2 hm1 hm2
    exact hinv.held_unique j1 j2 x h1 h2 (hheld j1 x hm1).2 (hheld j2 x hm2).2
  · intro j x hj h
    exact hinv.held_lt j x hj (hheld j x h).2
  · intro j x hj h
    exact hinv.waiting_lt j x hj (hwait j x h)
  · intro k x h
    exact hinv.reg_lt k x h
  · intro k x h hl
    obtain ⟨hx, hl0⟩ := hlocked x hl
    obtain ⟨j, hj, hjm⟩ := hinv.reg_owner k x h hl0
    exact ⟨j, hj, hkeep j x hj hx hjm⟩
  · intro j x hj h hl
    obtain ⟨hx, hl0⟩ := hlocked x hl
    obtain ⟨j1, hj1, hjm⟩ := hinv.waiting_owner j x hj (hwait j x h) hl0
    exact ⟨j1, hj1, hkeep j1 x hj1 hx hjm⟩
  · intro k x h
    obtain ⟨j, hj, hk, hjm⟩ := hinv.reg_user k x h
    have hji : j ≠ i := by
      intro hji
      rw [hji, hp] at hjm
      exact absurd hjm (by simp [PC.registered])
    exact ⟨j, hj, hk, by rw [advance_pc_other _ _ _ _ hji]; exact hjm⟩

/-- Every step keeps the lock discipline. -/
theorem lockInv_step {c : JSONCodec} {s s1 : System} {i : Nat} {out : String}
    (hinv : LockInv s) (h : step c s i out = some s1) : LockInv s1 := by
  obtain ⟨hi, p, w, ev, hmove, rfl⟩ := step_move h
  cases hmove with
  | loadOrStore hp => exact lockInv_loadOrStore hinv hi hp _ rfl _
  | lock m hp hfree => exact lockInv_lock hinv hi hp hfree _
  | getMiss m hp hget => exact lockInv_same hinv i _ _ _ rfl rfl rfl (by rw [hp]; rfl) (by rw [hp]; rfl) (by rw [hp]; rfl)
  | getHit m cached hp hget =>
    exact lockInv_same hinv i _ _ _ rfl rfl rfl (by rw [hp]; rfl) (by rw [hp]; rfl) (by rw [hp]; rfl)
  | enter m hp => exact lockInv_same hinv i _ _ _ rfl rfl rfl (by rw [hp]; rfl) (by rw [hp]; rfl) (by rw [hp]; rfl)
  | leave m hp => exact lockInv_same hinv i _ _ _ rfl rfl rfl (by rw [hp]; rfl) (by rw [hp]; rfl) (by rw [hp]; rfl)
  | setFail m result e hp herr =>
    obtain ⟨h1, h2, h3, _, _⟩ := databaseSet_world c s.world (key (s.req i).id (s.req i).cmd) result
    exact lockInv_same hinv i _ _ _ h1 h2 h3 (by rw [hp]; rfl) (by rw [hp]; rfl) (by rw [hp]; rfl)
  | setOk m result hp herr =>
    obtain ⟨h1, h2, h3, _, _⟩ := databaseSet_world c s.world (key (s.req i).id (s.req i).cmd) result
    exact lockInv_same hinv i _ _ _ h1 h2 h3 (by rw [hp]; rfl) (by rw [hp]; rfl) (by rw [hp]; rfl)
  | delete m resp hp => exact lockInv_delete hinv hp _ rfl _
  | unlock m resp hp => exact lockInv_unlock hinv hi hp _

theorem lockInv_launch (w : World) (n : Nat) (req : Nat → CmdExecRequest)
    (hreg : ∀ k, w.cmdMutexMap k = none) : LockInv (launch w n req) := by
  constructor
  · intro i m _ h; exact absurd h (by simp [NP.launch, PC.held])
  · intro i j m _ _ h; exact absurd h (by simp [NP.launch, PC.held])
  · intro i m _ h; exact absurd h (by simp [NP.launch, PC.held])
  · intro i m _ h; exact absurd h (by simp [NP.launch, PC.waiting])
  · intro k m h
    have : w.cmdMutexMap k = some m := h
    rw [hreg] at this
    exact absurd this (by simp)
  · intro k m h
    have : w.cmdMutexMap k = some m := h
    rw [hreg] at this
    exact absurd this (by simp)
  · intro i m _ h; exact absurd h (by simp [NP.launch, PC.waiting])
  · intro k m h
    have : w.cmdMutexMap k = some m := h
    rw [hreg] at this
    exact absurd this (by simp)

theorem run_cons_some {c : JSONCodec} {s s2 : System} {i : Nat} {out : String}
    {rest : List (Nat × String)} (h : run c s ((i, out) :: rest) = some s2) :
    ∃ s1, step c s i out = some s1 ∧ run c s1 rest = some s2 := by
  simp only [run] at h
  cases hs : step c s i out with
  | none => rw [hs] at h; exact absurd h (by simp)
  | some s1 => rw [hs] at h; exact ⟨s1, rfl, h⟩

/-- Every reachable state obeys the lock discipline. -/
theorem lockInv_run {c : JSONCodec} (schedule : List (Nat × String)) :
    ∀ {s s1 : System}, LockInv s → run c s schedule = some s1 → LockInv s1 := by
  induction schedule with
  | nil =>
    intro s s1 hinv h
    cases h
    exact hinv
  | cons a rest ih =>
    intro s s1 hinv h
    obtain ⟨i, out⟩ := a
    obtain ⟨s2, hstep, hrest⟩ := run_cons_some h
    exact ih (lockInv_step hinv hstep) hrest

theorem step_calls {c : JSONCodec} {s s1 : System} {i : Nat} {out : String}
    (h : step c s i out = some s1) : s1.calls = s.calls ∧ s1.req = s.req := by
  obtain ⟨_, p, w, ev, _, rfl⟩ := step_move h
  exact ⟨rfl, rfl⟩

theorem run_calls {c : JSONCodec} (schedule : List (Nat × String)) :
    ∀ {s s1 : System}, run c s schedule = some s1 → s1.calls = s.calls ∧ s1.req = s.req := by
  induction schedule with
  | nil =>
    intro s s1 h
    cases h
    exact ⟨rfl, rfl⟩
  | cons a rest ih =>
    intro s s1 h
    obtain ⟨i, out⟩ := a
    obtain ⟨s2, hstep, hrest⟩ := run_cons_some h
    obtain ⟨h1, h2⟩ := ih hrest
    obtain ⟨h3, h4⟩ := step_calls hstep
    exact ⟨h1.trans h3, h2.trans h4⟩


/-! ## C8: the lock registry -/

/-- C8, as stated, fails: after call 0 has run its deferred `Delete` the registry
has no entry for the key, while call 0 still holds the key's mutex locked (its
`Unlock` comes after) and call 1 is waiting to acquire that same mutex. -/
theorem registry_entry_removed_while_held :
    ∃ s, run demoCodec (launch (freshWorld emptyFS) 2 (fun _ => ⟨"deploy", 1⟩)) deleteSchedule
        = some s ∧
      s.world.cmdMutexMap (key 1 "deploy") = none ∧
      s.pc 0 = .deferUnlock 0 (okResponse ⟨"deploy", 1⟩ "OK") ∧
      s.pc 1 = .acquire 0 ∧
      s.world.mutexLocked 0 = true ∧
      s.trace.map Prod.snd = [.loadOrStore "1+deploy", .lock 0, .loadOrStore "1+deploy",
        .databaseGet "1+deploy", .executeCommand "deploy", .databaseSet "1+deploy" "OK",
        .mapDelete "1+deploy"] :=
  ⟨_, rfl, by decide, by decide, by decide, by decide, by decide⟩

theorem registered_held_or_waiting {p : PC} {m : Nat} (h : p.registered = some m) :
    p.held = some m ∨ p.waiting = some m := by
  cases p <;> simp [PC.registered] at h <;> simp [PC.held, PC.waiting, h]

/-- C8, amended: started from an empty registry, at every point of every execution,
if cmdMutexMap has an entry for key K then at least one call with key K holds or is
waiting to acquire that entry's mutex (the converse fails); and the only step that
removes the entry for K is the deferred `Delete` of a call with key K, which runs
while that call still holds its mutex locked, before its `Unlock`, whether or not
other calls wait on or hold a mutex for K. -/
theorem registry_entries_in_use (c : JSONCodec) (w : World) (n : Nat)
    (req : Nat → CmdExecRequest) (hreg : ∀ k, w.cmdMutexMap k = none)
    (schedule : List (Nat × String)) (s : System)
    (hrun : run c (launch w n req) schedule = some s) :
    (∀ k m, s.world.cmdMutexMap k = some m →
      ∃ i, i < n ∧ key (req i).id (req i).cmd = k ∧
        ((s.pc i).held = some m ∨ (s.pc i).waiting = some m)) ∧
    (∀ i out s1 k m, step c s i out = some s1 → s.world.cmdMutexMap k = some m →
      s1.world.cmdMutexMap k = none →
        i < n ∧ key (req i).id (req i).cmd = k ∧
        ∃ mi resp, s.pc i = .deferDelete mi resp ∧ s1.pc i = .deferUnlock mi resp ∧
          s.world.mutexLocked mi = true ∧ s1.world.mutexLocked mi = true) := by
  have hl : LockInv s := lockInv_run schedule (lockInv_launch w n req hreg) hrun
  obtain ⟨hcalls, hreq⟩ := run_calls schedule hrun
  have hcalls1 : s.calls = n := hcalls
  have hreq1 : s.req = req := hreq
  constructor
  · intro k m h
    obtain ⟨i, hi, hk, hm⟩ := hl.reg_user k m h
    rw [hcalls1] at hi
    rw [hreq1] at hk
    exact ⟨i, hi, hk, registered_held_or_waiting hm⟩
  · intro i out s1 k m hstep hk hk1
    obtain ⟨hi, p, w1, ev, hmove, rfl⟩ := step_move hstep
    have hk2 : w1.cmdMutexMap k = none := hk1
    cases hmove with
    | loadOrStore hp =>
      obtain ⟨_, _, hcase⟩ := getNamedMutex_spec s.world (key (s.req i).id (s.req i).cmd)
      rcases hcase with ⟨m0, _, _, hr⟩ | ⟨_, _, hr⟩
      · rw [hr, hk] at hk2
        exact absurd hk2 (by simp)
      · rw [hr] at hk2
        by_cases hx : k = key (s.req i).id (s.req i).cmd
        · rw [if_pos hx] at hk2
          exact absurd hk2 (by simp)
        · rw [if_neg hx, hk] at hk2
          exact absurd hk2 (by simp)
    | lock m1 hp hfree =>
      have : (mutexLock s.world m1).cmdMutexMap k = s.world.cmdMutexMap k := rfl
      rw [this, hk] at hk2
      exact absurd hk2 (by simp)
    | getMiss m1 hp hget => rw [hk] at hk2; exact absurd hk2 (by simp)
    | getHit m1 cached hp hget => rw [hk] at hk2; exact absurd hk2 (by simp)
    | enter m1 hp => rw [hk] at hk2; exact absurd hk2 (by simp)
    | leave m1 hp => rw [hk] at hk2; exact absurd hk2 (by simp)
    | setFail m1 result e hp herr =>
      rw [(databaseSet_world c s.world _ result).1, hk] at hk2
      exact absurd hk2 (by simp)
    | setOk m1 result hp herr =>
      rw [(databaseSet_world c s.world _ result).1, hk] at hk2
      exact absurd hk2 (by simp)
    | delete m1 resp hp =>
      have hkey : k = key (s.req i).id (s.req i).cmd := by
        by_contra hne
        have : (mapDelete s.world (key (s.req i).id (s.req i).cmd)).cmdMutexMap k
            = s.world.cmdMutexMap k := by simp [mapDelete, hne]
        rw [this, hk] at hk2
        exact absurd hk2 (by simp)
      have hlocked := hl.held_locked i m1 hi (by rw [hp]; rfl)
      refine ⟨by rw [← hcalls1]; exact hi, by rw [← hreq1]; exact hkey.symm,
        m1, resp, hp, advance_pc_self _ _ _ _ _, hlocked, hlocked⟩
    | unlock m1 resp hp =>
      have : (mutexUnlock s.world m1).cmdMutexMap k = s.world.cmdMutexMap k := rfl
      rw [this, hk] at hk2
      exact absurd hk2 (by simp)

theorem registry_entries_in_use_witness :
    ∃ s, run demoCodec (launch (freshWorld emptyFS) 2 (fun _ => ⟨"deploy", 1⟩))
        [(0, ""), (0, ""), (1, "")] = some s ∧
      s.world.cmdMutexMap "1+deploy" = some 0 ∧
      s.pc 0 = .critical 0 ∧ s.pc 1 = .acquire 0 ∧
      ∃ i, i < 2 ∧ key 1 "deploy" = "1+deploy" ∧
        ((s.pc i).held = some 0 ∨ (s.pc i).waiting = some 0) :=
  ⟨_, rfl, by decide, by decide, by decide,
    (registry_entries_in_use demoCodec (freshWorld emptyFS) 2 (fun _ => ⟨"deploy", 1⟩)
      (fun _ => rfl) [(0, ""), (0, ""), (1, "")] _ rfl).1 "1+deploy" 0 (by decide)⟩

/-! ## C1: coalescing -/

theorem execCalls_append (l1 l2 : List Event) :
    execCalls (l1 ++ l2) = execCalls l1 + execCalls l2 := by
  induction l1 with
  | nil => simp [execCalls]
  | cons e l1 ih =>
    cases e <;> simp [execCalls, ih]
    omega

theorem advance_execCalls (s : System) (i : Nat) (p : PC) (w : World) (ev : List Event) :
    (s.advance i p w ev).execCalls = s.execCalls + execCalls ev := by
  simp only [System.execCalls, System.advance, List.map_append, List.map_map, execCalls_append]
  congr 2
  induction ev with
  | nil => rfl
  | cons e ev ih => simp

theorem computing_held {p : PC} (h : p.computing = true) : ∃ m, p.held = some m := by
  cases p <;> simp [PC.computing] at h <;> exact ⟨_, rfl⟩

theorem running_computing {p : PC} (h : p.running = true) : p.computing = true := by
  cases p <;> simp [PC.running] at h <;> rfl

/-- In a state without an entry for the key, two computing calls are the same call. -/
theorem coalesceInv_computing_unique {req : CmdExecRequest} {w0 : World} {s : System}
    (hc : CoalesceInv req w0 s) (hl : LockInv s)
    (hmiss : s.world.database.data.get (key req.id req.cmd) = none) {i j : Nat}
    (hi : i < s.calls) (hj : j < s.calls) (h1 : (s.pc i).computing = true)
    (h2 : (s.pc j).computing = true) : i = j := by
  obtain ⟨m1, hm1⟩ := computing_held h1
  obtain ⟨m2, hm2⟩ := computing_held h2
  have e1 := hc.miss_refs hmiss i m1 hi (Or.inl hm1)
  have e2 := hc.miss_refs hmiss j m2 hj (Or.inl hm2)
  rw [e1] at e2
  have : m1 = m2 := Option.some.inj e2
  subst this
  exact hl.held_unique i j m1 hi hj hm1 hm2

/-- A move that changes neither the store nor the count of invocations, nor
whether the thread is running, keeps the invariant, given the facts about the
thread's new position. -/
theorem coalesceInv_transfer {req : CmdExecRequest} {w0 : World} {s : System}
    (hc : CoalesceInv req w0 s) (i : Nat) (p : PC) (w : World) (ev : List Event)
    (hdb : w.database = s.world.database) (hfs : w.fs = s.world.fs)
    (hev : execCalls ev = 0) (hrun : p.running = (s.pc i).running)
    (hcomp : ∀ r, s.world.database.data.get (key req.id req.cmd) = some r → p.computing = false)
    (hresp0 : s.world.database.data.get (key req.id req.cmd) = none → p.response = none)
    (hresp1 : ∀ r resp, s.world.database.data.get (key req.id req.cmd) = some r →
      p.response = some resp → resp = okResponse req r)
    (hrefs : s.world.database.data.get (key req.id req.cmd) = none →
      ∀ j m, j < s.calls → (((s.advance i p w ev).pc j).held = some m ∨
        ((s.advance i p w ev).pc j).waiting = some m) →
      w.cmdMutexMap (key req.id req.cmd) = some m) :
    CoalesceInv req w0 (s.advance i p w ev) := by
  have hrunning : ∀ j, ((s.advance i p w ev).pc j).running = (s.pc j).running := by
    intro j
    rw [advance_pc]
    by_cases hj : j = i
    · rw [if_pos hj, hj, hrun]
    · rw [if_neg hj]
  have hcount : (s.advance i p w ev).execCalls = s.execCalls := by
    rw [advance_execCalls, hev]; rfl
  have hdata : (s.advance i p w ev).world.database = s.world.database := hdb
  constructor
  · exact hc.same_req
  · show w.database.filename = _
    rw [hdb]; exact hc.filename
  · show w.fs.readOnly = _
    rw [hfs]; exact hc.readOnly
  · intro hm j hj
    rw [hdata] at hm
    rw [advance_pc]
    by_cases hji : j = i
    · rw [if_pos hji]; exact hresp0 hm
    · rw [if_neg hji]; exact hc.miss_early hm j hj
  · intro hm j m hj h
    rw [hdata] at hm
    exact hrefs hm j m hj h
  · intro hm hex
    rw [hdata] at hm
    rw [hcount]
    obtain ⟨j, hj, hjr⟩ := hex
    rw [hrunning] at hjr
    exact hc.miss_running hm ⟨j, hj, hjr⟩
  · intro hm hall
    rw [hdata] at hm
    rw [hcount]
    exact hc.miss_idle hm (fun j hj => by rw [← hrunning]; exact hall j hj)
  · intro r hr
    rw [hdata] at hr
    rw [hcount]
    exact hc.hit_count r hr
  · intro r hr j hj
    rw [hdata] at hr
    rw [advance_pc]
    by_cases hji : j = i
    · rw [if_pos hji]; exact hcomp r hr
    · rw [if_neg hji]; exact hc.hit_quiet r hr j hj
  · intro r hr j resp hj h
    rw [hdata] at hr
    rw [advance_pc] at h
    by_cases hji : j = i
    · rw [if_pos hji] at h; exact hresp1 r resp hr h
    · rw [if_neg hji] at h; exact hc.hit_resp r hr j resp hj h

theorem osWriteFile_readOnly (fs : FS) (name data : String) :
    (osWriteFile fs name data).2.readOnly = fs.readOnly := by
  unfold osWriteFile
  split <;> rfl

theorem databaseSet_files (c : JSONCodec) (w : World) (k v : String) :
    (databaseSet c w k v).2.fs.readOnly = w.fs.readOnly ∧
    (databaseSet c w k v).2.database.filename = w.database.filename ∧
    (databaseSet c w k v).2.database.data = w.database.data.set k v := by
  refine ⟨?_, rfl, rfl⟩
  simp only [databaseSet, fileDB.Set, fileDB.writeFile]
  cases c.marshalIndent (w.database.data.set k v) with
  | error e => rfl
  | ok bytes => exact osWriteFile_readOnly _ _ _

theorem databaseSet_ok {c : JSONCodec} {w0 w : World} (hw : WritesSucceed c w0)
    (hname : w.database.filename = w0.database.filename)
    (hro : w.fs.readOnly = w0.fs.readOnly) (k v : String) :
    (databaseSet c w k v).1 = none := by
  obtain ⟨bytes, hb⟩ := hw.1 (w.database.data.set k v)
  simp only [databaseSet, fileDB.Set, fileDB.writeFile, hb, osWriteFile]
  rw [hname, hro, hw.2]
  rfl

/-- Every step keeps the coalescing invariant. -/
theorem coalesceInv_step {c : JSONCodec} {req : CmdExecRequest} {w0 : World}
    {s s1 : System} {i : Nat} {out : String} (hw : WritesSucceed c w0)
    (hc : CoalesceInv req w0 s) (hl : LockInv s) (h : step c s i out = some s1) :
    CoalesceInv req w0 s1 := by
  obtain ⟨hi, p, w, ev, hmove, rfl⟩ := step_move h
  rw [hc.same_req i] at hmove
  have hrefs_of : ∀ (p1 : PC) (w1 : World) (ev1 : List Event),
      w1.cmdMutexMap = s.world.cmdMutexMap →
      (∀ m, (p1.held = some m ∨ p1.waiting = some m) →
        ((s.pc i).held = some m ∨ (s.pc i).waiting = some m)) →
      s.world.database.data.get (key req.id req.cmd) = none →
      ∀ j m, j < s.calls → (((s.advance i p1 w1 ev1).pc j).held = some m ∨
        ((s.advance i p1 w1 ev1).pc j).waiting = some m) →
      w1.cmdMutexMap (key req.id req.cmd) = some m := by
    intro p1 w1 ev1 hreg hsub hm j m hj hjm
    rw [hreg]
    rw [advance_pc] at hjm
    by_cases hji : j = i
    · rw [if_pos hji] at hjm
      exact hc.miss_refs hm i m hi (hsub m hjm)
    · rw [if_neg hji] at hjm
      exact hc.miss_refs hm j m hj hjm
  cases hmove with
  | loadOrStore hp =>
    obtain ⟨hdb, hfs⟩ := getNamedMutex_database s.world (key req.id req.cmd)
    refine coalesceInv_transfer hc i _ _ _ hdb hfs rfl (by rw [hp]; rfl) (fun _ _ => rfl) (fun _ => rfl)
      (fun _ _ _ h => absurd h (by simp [PC.response])) ?_
    intro hm j m hj hjm
    obtain ⟨_, _, hcase⟩ := getNamedMutex_spec s.world (key req.id req.cmd)
    rw [advance_pc] at hjm
    by_cases hji : j = i
    · rw [if_pos hji] at hjm
      have hm0 : (getNamedMutex s.world (key req.id req.cmd)).1 = m := by
        simpa [PC.held, PC.waiting] using hjm
      rcases hcase with ⟨m0, hreg0, hfst, hreg⟩ | ⟨_, hfst, hreg⟩
      · rw [hreg, hreg0, ← hm0, hfst]
      · rw [hreg, if_pos rfl, ← hm0, hfst]
    · rw [if_neg hji] at hjm
      have hold := hc.miss_refs hm j m hj hjm
      rcases hcase with ⟨m0, _, _, hreg⟩ | ⟨hnone, _, _⟩
      · rw [hreg]; exact hold
      · rw [hnone] at hold
        exact absurd hold (by simp)
  | lock m hp hfree =>
    refine coalesceInv_transfer hc i _ _ _ rfl rfl rfl (by rw [hp]; rfl) (fun _ _ => rfl) (fun _ => rfl)
      (fun _ _ _ h => absurd h (by simp [PC.response])) ?_
    refine hrefs_of _ _ _ rfl ?_
    intro x hx
    rw [hp]
    right
    simpa [PC.held, PC.waiting] using hx
  | getMiss m hp hget =>
    refine coalesceInv_transfer hc i _ _ _ rfl rfl rfl (by rw [hp]; rfl)
      (fun r hr => absurd (hget.symm.trans hr) (by simp)) (fun _ => rfl)
      (fun _ _ _ h => absurd h (by simp [PC.response])) ?_
    refine hrefs_of _ _ _ rfl ?_
    intro x hx
    rw [hp]
    left
    simpa [PC.held, PC.waiting] using hx
  | getHit m cached hp hget =>
    refine coalesceInv_transfer hc i _ _ _ rfl rfl rfl (by rw [hp]; rfl) (fun _ _ => rfl)
      (fun hm => absurd (hm.symm.trans hget) (by simp)) ?_ ?_
    · intro r resp hr hresp
      have hrc : cached = r := Option.some.inj (hget.symm.trans hr)
      rw [← hrc]
      exact (Option.some.inj hresp).symm
    · intro hm
      exact absurd (hm.symm.trans hget) (by simp)
  | enter m hp =>
    have hcom : (s.pc i).computing = true := by rw [hp]; rfl
    have hmiss : s.world.database.data.get (key req.id req.cmd) = none := by
      cases hd : s.world.database.data.get (key req.id req.cmd) with
      | none => rfl
      | some r =>
        have := hc.hit_quiet r hd i hi
        rw [hcom] at this
        exact absurd this (by simp)
    have hidle : ∀ j, j < s.calls → (s.pc j).running = false := by
      intro j hj
      cases hr : (s.pc j).running with
      | false => rfl
      | true =>
        have hji := coalesceInv_computing_unique hc hl hmiss hj hi (running_computing hr) hcom
        rw [hji, hp] at hr
        exact absurd hr (by simp [PC.running])
    constructor
    · exact hc.same_req
    · exact hc.filename
    · exact hc.readOnly
    · intro hm j hj
      rw [advance_pc]
      by_cases hji : j = i
      · rw [if_pos hji]; rfl
      · rw [if_neg hji]; exact hc.miss_early hmiss j hj
    · intro _
      refine hrefs_of (.executing m) s.world [.executeCommand req.cmd] rfl ?_ hmiss
      intro x hx
      rw [hp]
      left
      simpa [PC.held, PC.waiting] using hx
    · intro _ _
      rw [advance_execCalls, hc.miss_idle hmiss hidle]
      rfl
    · intro _ hall
      have := hall i hi
      rw [advance_pc_self] at this
      exact absurd this (by simp [PC.running])
    · intro r hr
      exact absurd (hmiss.symm.trans hr) (by simp)
    · intro r hr
      exact absurd (hmiss.symm.trans hr) (by simp)
    · intro r hr
      exact absurd (hmiss.symm.trans hr) (by simp)
  | leave m hp =>
    have hcom : (s.pc i).computing = true := by rw [hp]; rfl
    refine coalesceInv_transfer hc i _ _ _ rfl rfl rfl (by rw [hp]; rfl) ?_ (fun _ => rfl)
      (fun _ _ _ h => absurd h (by simp [PC.response])) ?_
    · intro r hr
      have := hc.hit_quiet r hr i hi
      rw [hcom] at this
      exact absurd this (by simp)
    · refine hrefs_of _ _ _ rfl ?_
      intro x hx
      rw [hp]
      left
      simpa [PC.held, PC.waiting] using hx
  | setFail m result e hp herr =>
    rw [databaseSet_ok hw hc.filename hc.readOnly] at herr
    exact absurd herr (by simp)
  | setOk m result hp herr =>
    have hcom : (s.pc i).computing = true := by rw [hp]; rfl
    have hmiss : s.world.database.data.get (key req.id req.cmd) = none := by
      cases hd : s.world.database.data.get (key req.id req.cmd) with
      | none => rfl
      | some r =>
        have := hc.hit_quiet r hd i hi
        rw [hcom] at this
        exact absurd this (by simp)
    obtain ⟨hro, hname, hdata⟩ := databaseSet_files c s.world (key req.id req.cmd) result
    have hnew : (databaseSet c s.world (key req.id req.cmd) result).2.database.data.get
        (key req.id req.cmd) = some result := by
      rw [hdata]; exact GoMap.get_set_same _ _ _
    constructor
    · exact hc.same_req
    · show (databaseSet c s.world (key req.id req.cmd) result).2.database.filename = _
      rw [hname]; exact hc.filename
    · show (databaseSet c s.world (key req.id req.cmd) result).2.fs.readOnly = _
      rw [hro]; exact hc.readOnly
    · intro hm
      exact absurd (hm.symm.trans hnew) (by simp)
    · intro hm
      exact absurd (hm.symm.trans hnew) (by simp)
    · intro hm
      exact absurd (hm.symm.trans hnew) (by simp)
    · intro hm
      exact absurd (hm.symm.trans hnew) (by simp)
    · intro r _
      rw [advance_execCalls, hc.miss_running hmiss ⟨i, hi, by rw [hp]; rfl⟩]
      rfl
    · intro r _ j hj
      rw [advance_pc]
      by_cases hji : j = i
      · rw [if_pos hji]; rfl
      · rw [if_neg hji]
        cases hcj : (s.pc j).computing with
        | false => rfl
        | true => exact absurd (coalesceInv_computing_unique hc hl hmiss hj hi hcj hcom) hji
    · intro r hr j resp hj hresp
      have hrr : result = r := Option.some.inj (hnew.symm.trans hr)
      rw [advance_pc] at hresp
      by_cases hji : j = i
      · rw [if_pos hji] at hresp
        rw [← hrr]
        exact (Option.some.inj hresp).symm
      · rw [if_neg hji] at hresp
        rw [hc.miss_early hmiss j hj] at hresp
        exact absurd hresp (by simp)
  | delete m resp hp =>
    have hresp : (s.pc i).response = some resp := by rw [hp]; rfl
    have hnot : s.world.database.data.get (key req.id req.cmd) ≠ none := by
      intro hm
      rw [hc.miss_early hm i hi] at hresp
      exact absurd hresp (by simp)
    refine coalesceInv_transfer hc i _ _ _ rfl rfl rfl (by rw [hp]; rfl) (fun _ _ => rfl)
      (fun hm => absurd hm hnot) ?_ (fun hm => absurd hm hnot)
    intro r resp1 hr h1
    exact hc.hit_resp r hr i resp1 hi (by rw [hresp]; exact h1)
  | unlock m resp hp =>
    have hresp : (s.pc i).response = some resp := by rw [hp]; rfl
    have hnot : s.world.database.data.get (key req.id req.cmd) ≠ none := by
      intro hm
      rw [hc.miss_early hm i hi] at hresp
      exact absurd hresp (by simp)
    refine coalesceInv_transfer hc i _ _ _ rfl rfl rfl (by rw [hp]; rfl) (fun _ _ => rfl)
      (fun hm => absurd hm hnot) ?_ (fun hm => absurd hm hnot)
    intro r resp1 hr h1
    exact hc.hit_resp r hr i resp1 hi (by rw [hresp]; exact h1)

theorem coalesceInv_launch (req : CmdExecRequest) (w : World) (n : Nat)
    (hmiss : w.database.data.get (key req.id req.cmd) = none) :
    CoalesceInv req w (launch w n (fun _ => req)) := by
  constructor
  · intro i; rfl
  · rfl
  · rfl
  · intro _ i _; rfl
  · intro _ i m _ h
    exact absurd h (by simp [launch, PC.held, PC.waiting])
  · rintro _ ⟨i, _, h⟩
    exact absurd h (by simp [launch, PC.running])
  · intro _ _; rfl
  · intro r hr
    exact absurd (hmiss.symm.trans hr) (by simp)
  · intro r hr
    exact absurd (hmiss.symm.trans hr) (by simp)
  · intro r hr
    exact absurd (hmiss.symm.trans hr) (by simp)

/-- Every reachable state obeys the coalescing invariant (and the lock discipline). -/
theorem coalesceInv_run {c : JSONCodec} {req : CmdExecRequest} {w0 : World}
    (hw : WritesSucceed c w0) (schedule : List (Nat × String)) :
    ∀ {s s1 : System}, CoalesceInv req w0 s → LockInv s → run c s schedule = some s1 →
      CoalesceInv req w0 s1 ∧ LockInv s1 := by
  induction schedule with
  | nil =>
    intro s s1 hc hl h
    cases h
    exact ⟨hc, hl⟩
  | cons a rest ih =>
    intro s s1 hc hl h
    obtain ⟨i, out⟩ := a
    obtain ⟨s2, hstep, hrest⟩ := run_cons_some h
    exact ih (coalesceInv_step hw hc hl hstep) (lockInv_step hl hstep) hrest

/-! ### Progress: every step advances one call, and a call takes at most 8 steps -/

theorem rank_le (p : PC) : p.rank ≤ 8 := by
  cases p <;> simp [PC.rank]

theorem move_rank_lt {c : JSONCodec} {req : CmdExecRequest} {out : String} {w w1 : World}
    {p p1 : PC} {ev : List Event} (h : Move c req out w p p1 w1 ev) : p.rank < p1.rank := by
  cases h <;> subst_vars <;> simp [PC.rank]

theorem sum_range_congr (f g : Nat → Nat) :
    ∀ n, (∀ j, j < n → g j = f j) → ((List.range n).map g).sum = ((List.range n).map f).sum := by
  intro n
  induction n with
  | zero => intro _; rfl
  | succ n ih =>
    intro h
    rw [List.range_succ, List.map_append, List.map_append, List.sum_append, List.sum_append,
      ih (fun j hj => h j (Nat.lt_succ_of_lt hj))]
    simp [h n (Nat.lt_succ_self n)]

theorem sum_range_lt (f g : Nat → Nat) (i : Nat) (hfg : ∀ j, j ≠ i → g j = f j)
    (hi : f i < g i) :
    ∀ n, i < n → ((List.range n).map f).sum < ((List.range n).map g).sum := by
  intro n
  induction n with
  | zero => intro h; omega
  | succ n ih =>
    intro h
    rw [List.range_succ, List.map_append, List.map_append, List.sum_append, List.sum_append]
    simp only [List.map_cons, List.map_nil, List.sum_cons, List.sum_nil, Nat.add_zero]
    by_cases hin : i = n
    · have := sum_range_congr f g n (fun j hj => hfg j (by omega))
      rw [this]
      rw [hin] at hi
      omega
    · have h1 := ih (by omega)
      have h2 := hfg n (fun e => hin e.symm)
      omega

theorem sum_range_le (f : Nat → Nat) (b : Nat) (hf : ∀ j, f j ≤ b) :
    ∀ n, ((List.range n).map f).sum ≤ b * n := by
  intro n
  induction n with
  | zero => simp
  | succ n ih =>
    rw [List.range_succ, List.map_append, List.sum_append]
    simp only [List.map_cons, List.map_nil, List.sum_cons, List.sum_nil, Nat.add_zero]
    have := hf n
    rw [Nat.mul_succ]
    omega

theorem step_progress {c : JSONCodec} {s s1 : System} {i : Nat} {out : String}
    (h : step c s i out = some s1) : s.progress < s1.progress := by
  obtain ⟨hi, p, w, ev, hmove, rfl⟩ := step_move h
  unfold System.progress
  show ((List.range s.calls).map (fun j => (s.pc j).rank)).sum
    < ((List.range s.calls).map (fun j => ((s.advance i p w ev).pc j).rank)).sum
  apply sum_range_lt _ _ i _ _ _ hi
  · intro j hj
    show ((s.advance i p w ev).pc j).rank = (s.pc j).rank
    rw [advance_pc_other _ _ _ _ hj]
  · show (s.pc i).rank < ((s.advance i p w ev).pc i).rank
    rw [advance_pc_self]
    exact move_rank_lt hmove

theorem run_progress {c : JSONCodec} (schedule : List (Nat × String)) :
    ∀ {s s1 : System}, run c s schedule = some s1 →
      s.progress + schedule.length ≤ s1.progress := by
  induction schedule with
  | nil =>
    intro s s1 h
    cases h
    simp
  | cons a rest ih =>
    intro s s1 h
    obtain ⟨i, out⟩ := a
    obtain ⟨s2, hstep, hrest⟩ := run_cons_some h
    have h1 := step_progress hstep
    have h2 := ih hrest
    simp only [List.length_cons]
    omega

/-- A schedule that runs is at most 8 steps per call long. -/
theorem run_length_le {c : JSONCodec} {w : World} {n : Nat} {req : Nat → CmdExecRequest}
    {schedule : List (Nat × String)} {s : System}
    (h : run c (launch w n req) schedule = some s) : schedule.length ≤ 8 * n := by
  have h1 := run_progress schedule h
  have h2 : s.progress ≤ 8 * s.calls := sum_range_le _ 8 (fun j => rank_le _) _
  rw [(run_calls schedule h).1] at h2
  have h3 : (launch w n req).calls = n := rfl
  rw [h3] at h2
  omega

/-! ### No deadlock -/

theorem step_enabled_held (c : JSONCodec) {s : System} {i m : Nat} (out : String)
    (hi : i < s.calls) (h : (s.pc i).held = some m) : ∃ s1, step c s i out = some s1 := by
  unfold step
  rw [if_pos hi]
  cases hp : s.pc i with
  | start => rw [hp] at h; exact absurd h (by simp [PC.held])
  | acquire m1 => rw [hp] at h; exact absurd h (by simp [PC.held])
  | done resp => rw [hp] at h; exact absurd h (by simp [PC.held])
  | critical m1 =>
    simp only
    split <;> exact ⟨_, rfl⟩
  | call m1 => exact ⟨_, rfl⟩
  | executing m1 => exact ⟨_, rfl⟩
  | save m1 result =>
    simp only
    split <;> exact ⟨_, rfl⟩
  | deferDelete m1 resp => exact ⟨_, rfl⟩
  | deferUnlock m1 resp => exact ⟨_, rfl⟩

/-- While some call has not returned, some call can take a step. -/
theorem lockInv_no_deadlock (c : JSONCodec) {s : System} (hl : LockInv s) (out : String)
    (h : ¬ s.allDone) : ∃ i s1, step c s i out = some s1 := by
  unfold System.allDone at h
  push_neg at h
  obtain ⟨i, hi, hnd⟩ := h
  cases hp : s.pc i with
  | done resp => exact absurd hp (hnd resp)
  | start =>
    refine ⟨i, ?_⟩
    unfold step
    rw [if_pos hi, hp]
    exact ⟨_, rfl⟩
  | acquire m =>
    cases hm : s.world.mutexLocked m with
    | false =>
      refine ⟨i, ?_⟩
      unfold step
      rw [if_pos hi, hp]
      simp only [hm]
      exact ⟨_, rfl⟩
    | true =>
      obtain ⟨j, hj, hjm⟩ := hl.waiting_owner i m hi (by rw [hp]; rfl) hm
      exact ⟨j, step_enabled_held c out hj hjm⟩
  | critical m => exact ⟨i, step_enabled_held c out hi (by rw [hp]; rfl)⟩
  | call m => exact ⟨i, step_enabled_held c out hi (by rw [hp]; rfl)⟩
  | executing m => exact ⟨i, step_enabled_held c out hi (by rw [hp]; rfl)⟩
  | save m r => exact ⟨i, step_enabled_held c out hi (by rw [hp]; rfl)⟩
  | deferDelete m r => exact ⟨i, step_enabled_held c out hi (by rw [hp]; rfl)⟩
  | deferUnlock m r => exact ⟨i, step_enabled_held c out hi (by rw [hp]; rfl)⟩

/-- From a state that obeys the lock discipline the calls can be run to the end. -/
theorem run_to_completion (c : JSONCodec) :
    ∀ (k : Nat) (s : System), LockInv s → 8 * s.calls - s.progress ≤ k →
      ∃ rest s2, run c s rest = some s2 ∧ s2.allDone := by
  intro k
  induction k with
  | zero =>
    intro s hl hk
    by_cases hd : s.allDone
    · exact ⟨[], s, rfl, hd⟩
    · obtain ⟨i, s1, hs⟩ := lockInv_no_deadlock c hl "" hd
      have h1 := step_progress hs
      have h2 : s1.progress ≤ 8 * s1.calls := sum_range_le _ 8 (fun j => rank_le _) _
      rw [(step_calls hs).1] at h2
      omega
  | succ k ih =>
    intro s hl hk
    by_cases hd : s.allDone
    · exact ⟨[], s, rfl, hd⟩
    · obtain ⟨i, s1, hs⟩ := lockInv_no_deadlock c hl "" hd
      have h1 := step_progress hs
      obtain ⟨rest, s2, hr, hd2⟩ := ih s1 (lockInv_step hl hs)
        (by rw [(step_calls hs).1]; omega)
      refine ⟨(i, "") :: rest, s2, ?_, hd2⟩
      simp only [run, hs]
      exact hr

/-- C1 (coalescing): `n ≥ 1` concurrent calls of `handleCommand` carry the same
`(id, cmd)`; the registry starts empty, the store has no entry for the key and
writes succeed. In every state reached by any interleaving of the calls' steps,
`ExecuteCommand` has been invoked at most once and no two calls are inside it; when
all calls have returned it has been invoked exactly once and all `n` responses are
the same 200 response; and the calls do return: a state where some call has not
returned has an enabled step, every schedule is at most `8 * n` steps long, and every
reachable state can be run on to one where all calls have returned. -/
theorem coalescing (c : JSONCodec) (w : World) (n : Nat) (req : CmdExecRequest)
    (hn : 1 ≤ n) (hreg : ∀ k, w.cmdMutexMap k = none)
    (hmiss : (w.database.Get (key req.id req.cmd)).2 = false)
    (hwrite : WritesSucceed c w)
    (schedule : List (Nat × String)) (s : System)
    (hrun : run c (launch w n (fun _ => req)) schedule = some s) :
    s.execCalls ≤ 1 ∧
    (∀ i j, i < n → j < n → (s.pc i).inFlight = true → (s.pc j).inFlight = true → i = j) ∧
    (s.allDone → s.execCalls = 1 ∧
      ∃ result, ∀ i, i < n → s.pc i = .done (okResponse req result)) ∧
    (¬ s.allDone → ∀ out, ∃ i s1, step c s i out = some s1) ∧
    schedule.length ≤ 8 * n ∧
    (∃ rest s2, run c s rest = some s2 ∧ s2.allDone) := by
  obtain ⟨hc, hl⟩ := coalesceInv_run hwrite schedule
    (coalesceInv_launch req w n (fileDB.Get_snd_false.mp hmiss))
    (lockInv_launch w n (fun _ => req) hreg) hrun
  have hcalls : s.calls = n := (run_calls schedule hrun).1
  refine ⟨?_, ?_, ?_, ?_, run_length_le hrun, run_to_completion c _ s hl (Nat.le_refl _)⟩
  · cases hd : s.world.database.data.get (key req.id req.cmd) with
    | some r => rw [hc.hit_count r hd]
    | none =>
      by_cases hex : ∃ i, i < s.calls ∧ (s.pc i).running = true
      · rw [hc.miss_running hd hex]
      · rw [hc.miss_idle hd (fun i hi => by
          cases hr : (s.pc i).running with
          | false => rfl
          | true => exact absurd ⟨i, hi, hr⟩ hex)]
        omega
  · intro i j hi hj h1 h2
    rw [← hcalls] at hi hj
    have c1 : (s.pc i).computing = true := by
      cases hp : s.pc i <;> rw [hp] at h1 <;> simp [PC.inFlight] at h1
      rfl
    have c2 : (s.pc j).computing = true := by
      cases hp : s.pc j <;> rw [hp] at h2 <;> simp [PC.inFlight] at h2
      rfl
    cases hd : s.world.database.data.get (key req.id req.cmd) with
    | some r =>
      have := hc.hit_quiet r hd i hi
      rw [c1] at this
      exact absurd this (by simp)
    | none => exact coalesceInv_computing_unique hc hl hd hi hj c1 c2
  · intro hdone
    have h0 : 0 < s.calls := by omega
    obtain ⟨resp0, hresp0⟩ := hdone 0 h0
    cases hd : s.world.database.data.get (key req.id req.cmd) with
    | none =>
      have := hc.miss_early hd 0 h0
      rw [hresp0] at this
      exact absurd this (by simp [PC.response])
    | some r =>
      refine ⟨hc.hit_count r hd, r, ?_⟩
      intro i hi
      rw [← hcalls] at hi
      obtain ⟨resp, hresp⟩ := hdone i hi
      rw [hresp, hc.hit_resp r hd i resp hi (by rw [hresp]; rfl)]
  · intro hnd out
    exact lockInv_no_deadlock c hl out hnd

theorem coalescing_witness :
    ∃ s, run demoCodec (launch (freshWorld emptyFS) 2 (fun _ => ⟨"deploy", 1⟩)) fullSchedule
        = some s ∧ s.execCalls = 1 ∧
      s.pc 0 = .done (okResponse ⟨"deploy", 1⟩ "OK") ∧
      s.pc 1 = .done (okResponse ⟨"deploy", 1⟩ "OK") := by
  have hsome : (run demoCodec (launch (freshWorld emptyFS) 2 (fun _ => ⟨"deploy", 1⟩))
      fullSchedule).isSome = true := by decide
  obtain ⟨s, hs⟩ := Option.isSome_iff_exists.mp hsome
  have h := coalescing demoCodec (freshWorld emptyFS) 2 ⟨"deploy", 1⟩ (by decide) (fun _ => rfl)
    (by decide) ⟨fun _ => ⟨_, rfl⟩, by decide⟩ fullSchedule s hs
  have hp : (run demoCodec (launch (freshWorld emptyFS) 2 (fun _ => ⟨"deploy", 1⟩))
      fullSchedule).map (fun s => (s.pc 0, s.pc 1))
      = some (.done (okResponse ⟨"deploy", 1⟩ "OK"), .done (okResponse ⟨"deploy", 1⟩ "OK")) := by
    decide
  rw [hs] at hp
  simp only [Option.map_some', Option.some.injEq, Prod.mk.injEq] at hp
  have hdone : s.allDone := by
    intro i hi
    have hc : s.calls = 2 := (run_calls _ hs).1
    rw [hc] at hi
    have : i = 0 ∨ i = 1 := by omega
    rcases this with h0 | h0
    · subst h0; exact ⟨_, hp.1⟩
    · subst h0; exact ⟨_, hp.2⟩
  exact ⟨s, hs, (h.2.2.1 hdone).1, hp.1, hp.2⟩

/-! ## The two embeddings agree -/

/-- Conversely to `step_move`, every move of an existing thread is a step. -/
theorem move_step {c : JSONCodec} {s : System} {i : Nat} {out : String} {p : PC} {w : World}
    {ev : List Event} (hi : i < s.calls)
    (h : Move c (s.req i) out s.world (s.pc i) p w ev) :
    step c s i out = some (s.advance i p w ev) := by
  unfold step
  rw [if_pos hi]
  cases h with
  | loadOrStore hp => rw [hp]
  | lock m hp hfree =>
    rw [hp]
    simp only [hfree]
    rfl
  | getMiss m hp hget =>
    rw [hp]
    simp only [fileDB.Get, hget]
    rfl
  | getHit m cached hp hget =>
    rw [hp]
    simp only [fileDB.Get, hget]
    rfl
  | enter m hp => rw [hp]
  | leave m hp => rw [hp]
  | setFail m result e hp herr =>
    rw [hp]
    simp only [herr]
  | setOk m result hp herr =>
    rw [hp]
    simp only [herr]
  | delete m resp hp => rw [hp]
  | unlock m resp hp => rw [hp]

theorem run_move {c : JSONCodec} {s : System} {i : Nat} {out : String} {p : PC} {w : World}
    {ev : List Event} {rest : List (Nat × String)} (hi : i < s.calls)
    (h : Move c (s.req i) out s.world (s.pc i) p w ev) :
    run c s ((i, out) :: rest) = run c (s.advance i p w ev) rest := by
  simp only [run, move_step hi h]

/-- A call that runs alone, step by step, ends as `coordinate` says: whenever
`coordinate` returns a response, the schedule that lets the one thread run (with the
Executor returning what `env.ExecuteCommand` returns) reaches `done` with the same
response, the same world and the same trace. -/
theorem solo_run_is_coordinate (env : Env) (w : World) (req : CmdExecRequest) (resp : Response)
    (h : (coordinate env w req).response = some resp) :
    ∃ schedule s, run env.json (launch w 1 (fun _ => req)) schedule = some s ∧
      s.pc 0 = .done resp ∧ s.world = (coordinate env w req).world ∧
      s.trace.map Prod.snd = (coordinate env w req).trace := by
  have h0 : (0 : Nat) < 1 := Nat.one_pos
  rcases hgm : getNamedMutex w (key req.id req.cmd) with ⟨m, w1⟩
  have hdb : w1.database = w.database := by
    have := (getNamedMutex_database w (key req.id req.cmd)).1
    rw [hgm] at this
    exact this
  have hm : (getNamedMutex w (key req.id req.cmd)).1 = m := by rw [hgm]
  have hw1 : (getNamedMutex w (key req.id req.cmd)).2 = w1 := by rw [hgm]
  have hdata : (mutexLock w1 m).database.data.get (key req.id req.cmd)
      = w.database.data.get (key req.id req.cmd) := by
    simp only [mutexLock]
    rw [hdb]
  have first : ∀ rest, run env.json (launch w 1 (fun _ => req)) ((0, "") :: rest)
      = run env.json ((launch w 1 (fun _ => req)).advance 0 (.acquire m) w1
          [.loadOrStore (key req.id req.cmd)]) rest := by
    intro rest
    have := @run_move env.json (launch w 1 (fun _ => req)) 0 "" _ _ _ rest h0
      (.loadOrStore rfl)
    rw [show (launch w 1 (fun _ => req)).req 0 = req from rfl,
      show (launch w 1 (fun _ => req)).world = w from rfl, hm, hw1] at this
    exact this
  rcases coordinate_cases env w req _ m w1 rfl hgm with ⟨_, hc⟩ | ⟨hl, c, hget, hc⟩ | ⟨hl, hget, hc⟩
  · rw [hc] at h
    exact absurd h (by simp)
  · rw [hc] at h ⊢
    have hresp : okResponse req c = resp := Option.some.inj h
    refine ⟨[(0, ""), (0, ""), (0, ""), (0, ""), (0, "")], ?s1, ?h11, ?h21, ?h31, ?h41⟩
    case h11 =>
      refine (first _).trans ?_
      refine (run_move (by exact h0) (by exact .lock m rfl hl)).trans ?_
      refine (run_move (by exact h0) (by exact .getHit m c rfl (hdata.trans hget))).trans ?_
      refine (run_move (by exact h0) (by exact .delete m _ rfl)).trans ?_
      refine (run_move (by exact h0) (by exact .unlock m _ rfl)).trans ?_
      exact rfl
    case h21 =>
      rw [advance_pc_self]
      exact congrArg PC.done hresp
    case h31 => rfl
    case h41 => rfl
  · rw [hc] at h ⊢
    cases he : (databaseSet env.json (mutexLock w1 m) (key req.id req.cmd)
        (env.ExecuteCommand req.cmd)).1 with
    | none =>
      rw [he] at h
      have hresp : okResponse req (env.ExecuteCommand req.cmd) = resp := Option.some.inj h
      refine ⟨[(0, ""), (0, ""), (0, ""), (0, ""), (0, env.ExecuteCommand req.cmd),
        (0, ""), (0, ""), (0, "")], ?s2, ?h12, ?h22, ?h32, ?h42⟩
      case h12 =>
        refine (first _).trans ?_
        refine (run_move (by exact h0) (by exact .lock m rfl hl)).trans ?_
        refine (run_move (by exact h0) (by exact .getMiss m rfl (hdata.trans hget))).trans ?_
        refine (run_move (by exact h0) (by exact .enter m rfl)).trans ?_
        refine (run_move (by exact h0) (by exact .leave m rfl)).trans ?_
        refine (run_move (by exact h0) (by exact .setOk m _ rfl he)).trans ?_
        refine (run_move (by exact h0) (by exact .delete m _ rfl)).trans ?_
        refine (run_move (by exact h0) (by exact .unlock m _ rfl)).trans ?_
        exact rfl
      case h22 =>
        rw [advance_pc_self]
        exact congrArg PC.done hresp
      case h32 => rfl
      case h42 => rfl
    | some e =>
      rw [he] at h
      have hresp : saveErrorResponse = resp := Option.some.inj h
      refine ⟨[(0, ""), (0, ""), (0, ""), (0, ""), (0, env.ExecuteCommand req.cmd),
        (0, ""), (0, ""), (0, "")], ?s3, ?h13, ?h23, ?h33, ?h43⟩
      case h13 =>
        refine (first _).trans ?_
        refine (run_move (by exact h0) (by exact .lock m rfl hl)).trans ?_
        refine (run_move (by exact h0) (by exact .getMiss m rfl (hdata.trans hget))).trans ?_
        refine (run_move (by exact h0) (by exact .enter m rfl)).trans ?_
        refine (run_move (by exact h0) (by exact .leave m rfl)).trans ?_
        refine (run_move (by exact h0) (by exact .setFail m _ e rfl he)).trans ?_
        refine (run_move (by exact h0) (by exact .delete m _ rfl)).trans ?_
        refine (run_move (by exact h0) (by exact .unlock m _ rfl)).trans ?_
        exact rfl
      case h23 =>
        rw [advance_pc_self]
        exact congrArg PC.done hresp
      case h33 => rfl
      case h43 => rfl

end NP
